import Mathlib

/-!
Verification of the sentiment-analysis client (`src/gemini_client.py`).

The development shallowly embeds the two cores of the repository:

* the response-decoding pipeline `GeminiClient._parse_api_response`
  together with its helper stages (`_clean_response_text`,
  `_is_truncated_json`, `_fix_truncated_json`,
  `_create_sentiment_response`, `_infer_sentiment_from_text`), and
* the transport retry loop `GeminiClient._make_api_request`.

JSON texts are modelled over `List Char`; JSON values carry integers as
`ℤ` and decimal numbers as `ℚ` (exact decimal arithmetic stands in for
IEEE-754 doubles; every number compared in a theorem is an exact decimal
on both sides).  The non-standard `NaN/Infinity` literals of Python's
parser, `int`-literal underscores, and lone-surrogate escapes are outside
the modelled fragment; no claim touches them.  Whitespace predicates
cover the ASCII whitespace characters.
-/

/-- The ASCII whitespace characters: the fragment of Python's `str.strip`
and of the regex class `\s` exercised by the code. -/
def isWs (c : Char) : Bool :=
  c = ' ' || c = '\t' || c = '\n' || c = '\r' || c = '\x0b' || c = '\x0c'

/-- JSON whitespace, exactly the class `[ \t\n\r]` of `json.decoder`. -/
def isJsonWs (c : Char) : Bool :=
  c = ' ' || c = '\t' || c = '\n' || c = '\r'

/-- ASCII lowering, the fragment of Python's `str.lower` used by the
keyword heuristics (all keywords are ASCII). -/
def pyLower (c : Char) : Char :=
  if 'A' ≤ c ∧ c ≤ 'Z' then Char.ofNat (c.toNat + 32) else c

/-- Python's substring operator `pat in hay` on text. -/
def containsSub (hay pat : List Char) : Bool :=
  decide (pat <:+: hay)

/-- A parsed JSON value, as produced by `json.loads`: `int` and `float`
are kept apart because Python's `int()`/`float()` conversions treat them
differently; objects keep their key/value pairs in textual order. -/
inductive JValue where
  | null : JValue
  | bool : Bool → JValue
  | int : ℤ → JValue
  | float : ℚ → JValue
  | str : String → JValue
  | arr : List JValue → JValue
  | obj : List (String × JValue) → JValue

/-- Dictionary lookup on a parsed object: `json.loads` keeps the last
value bound to a duplicated key, so lookup scans from the right. -/
def pyGet (kvs : List (String × JValue)) (k : String) : Option JValue :=
  (kvs.reverse.find? (fun kv => kv.1 == k)).map (fun kv => kv.2)

/-- Python truthiness of a JSON value (`if not x`). -/
def pyFalsy : JValue → Bool
  | .null => true
  | .bool b => !b
  | .int n => n = 0
  | .float q => q = 0
  | .str s => s.data.isEmpty
  | .arr xs => xs.isEmpty
  | .obj kvs => kvs.isEmpty

/-- Truncation of an exact rational toward zero: Python's `int(float)`. -/
def pyTrunc (q : ℚ) : ℤ :=
  if 0 ≤ q then ⌊q⌋ else -⌊-q⌋

/-- Python's `int(str)`: optional surrounding whitespace, an optional
sign, then a non-empty digit run. -/
def pyIntStr (s : String) : Option ℤ :=
  let t := (s.data.dropWhile isWs).reverse.dropWhile isWs |>.reverse
  let (neg, ds) : Bool × List Char :=
    match t with
    | '-' :: r => (true, r)
    | '+' :: r => (false, r)
    | r => (false, r)
  if ds.isEmpty || !ds.all (·.isDigit) then none
  else
    let n : ℕ := ds.foldl (fun acc c => 10 * acc + (c.toNat - 48)) 0
    some (if neg then -(n : ℤ) else (n : ℤ))

/-- Python's `int(x)` on a JSON value; `none` is the uncaught
`TypeError`/`ValueError`. -/
def pyIntOf : JValue → Option ℤ
  | .int n => some n
  | .bool b => some (if b then 1 else 0)
  | .float q => some (pyTrunc q)
  | .str s => pyIntStr s
  | _ => none

/-- Python's `float(x)` on a JSON value; string conversion is restricted
to plain decimal literals with optional sign, point and exponent. -/
def pyFloatStr (s : String) : Option ℚ :=
  let t := (s.data.dropWhile isWs).reverse.dropWhile isWs |>.reverse
  let (sgn, r1) : ℚ × List Char :=
    match t with
    | '-' :: r => ((-1 : ℚ), r)
    | '+' :: r => ((1 : ℚ), r)
    | r => ((1 : ℚ), r)
  let intDs := r1.takeWhile (·.isDigit)
  let r2 := r1.dropWhile (·.isDigit)
  let (fracDs, r3) : List Char × List Char :=
    match r2 with
    | '.' :: r => (r.takeWhile (·.isDigit), r.dropWhile (·.isDigit))
    | r => ([], r)
  if intDs.isEmpty && fracDs.isEmpty then none
  else
    let mant : ℚ :=
      (intDs.foldl (fun acc c => 10 * acc + (c.toNat - 48 : ℕ)) 0 : ℕ) +
      (fracDs.foldl (fun acc c => 10 * acc + (c.toNat - 48 : ℕ)) 0 : ℕ) / (10 : ℚ) ^ fracDs.length
    match r3 with
    | [] => some (sgn * mant)
    | e :: r4 =>
      if e = 'e' ∨ e = 'E' then
        let (eneg, r5) : Bool × List Char :=
          match r4 with
          | '-' :: r => (true, r)
          | '+' :: r => (false, r)
          | r => (false, r)
        if r5.isEmpty || !r5.all (·.isDigit) then none
        else
          let ex : ℕ := r5.foldl (fun acc c => 10 * acc + (c.toNat - 48)) 0
          some (sgn * mant * (if eneg then ((10 : ℚ) ^ ex)⁻¹ else (10 : ℚ) ^ ex))
      else none

/-- Python's `float(x)` on a JSON value; `none` is the uncaught
`TypeError`/`ValueError`. -/
def pyFloatOf : JValue → Option ℚ
  | .int n => some (n : ℚ)
  | .float q => some q
  | .bool b => some (if b then 1 else 0)
  | .str s => pyFloatStr s
  | _ => none

/-- Value of a digit run. -/
def digitsVal (ds : List Char) : ℕ :=
  ds.foldl (fun acc c => 10 * acc + (c.toNat - 48)) 0

/-- Hexadecimal digit value. -/
def hexVal (c : Char) : Option ℕ :=
  if '0' ≤ c ∧ c ≤ '9' then some (c.toNat - 48)
  else if 'a' ≤ c ∧ c ≤ 'f' then some (c.toNat - 87)
  else if 'A' ≤ c ∧ c ≤ 'F' then some (c.toNat - 55)
  else none

/-- The two-character escapes accepted inside JSON strings. -/
def escChar : Char → Option Char
  | '"' => some '"'
  | '\\' => some '\\'
  | '/' => some '/'
  | 'b' => some '\x08'
  | 'f' => some '\x0c'
  | 'n' => some '\n'
  | 'r' => some '\r'
  | 't' => some '\t'
  | _ => none

/-- Skip JSON whitespace. -/
def skipWsJ (l : List Char) : List Char :=
  l.dropWhile isJsonWs

/-- Parse the body of a JSON string (the opening quote already consumed),
returning the decoded characters and the input after the closing quote.
Strict mode: raw control characters are rejected; surrogate pairs are
combined as `json.decoder` does. -/
def pStr : ℕ → List Char → Option (List Char × List Char)
  | 0, _ => none
  | _ + 1, [] => none
  | fuel + 1, c :: r =>
    if c = '"' then some ([], r)
    else if c = '\\' then
      match r with
      | 'u' :: h1 :: h2 :: h3 :: h4 :: r2 =>
        match hexVal h1, hexVal h2, hexVal h3, hexVal h4 with
        | some a, some b, some c2, some d =>
          let n := ((a * 16 + b) * 16 + c2) * 16 + d
          match r2 with
          | '\\' :: 'u' :: g1 :: g2 :: g3 :: g4 :: r3 =>
            match hexVal g1, hexVal g2, hexVal g3, hexVal g4 with
            | some a2, some b2, some c3, some d2 =>
              let m := ((a2 * 16 + b2) * 16 + c3) * 16 + d2
              if 0xD800 ≤ n ∧ n ≤ 0xDBFF ∧ 0xDC00 ≤ m ∧ m ≤ 0xDFFF then
                (pStr fuel r3).map
                  (fun p => (Char.ofNat (0x10000 + (n - 0xD800) * 0x400 + (m - 0xDC00)) :: p.1, p.2))
              else
                (pStr fuel r2).map (fun p => (Char.ofNat n :: p.1, p.2))
            | _, _, _, _ => (pStr fuel r2).map (fun p => (Char.ofNat n :: p.1, p.2))
          | _ => (pStr fuel r2).map (fun p => (Char.ofNat n :: p.1, p.2))
        | _, _, _, _ => none
      | e :: r2 =>
        match escChar e with
        | some ec => (pStr fuel r2).map (fun p => (ec :: p.1, p.2))
        | none => none
      | [] => none
    else if c.toNat < 32 then none
    else (pStr fuel r).map (fun p => (c :: p.1, p.2))

/-- Leading minus sign of a JSON number. -/
def pSign (l : List Char) : Bool × List Char :=
  match l with
  | '-' :: r => (true, r)
  | r => (false, r)

/-- The integer-part digits of a JSON number, positioned after its
first digit `c`: a lone `0`, or a nonzero digit followed by a digit
run (the regex alternative `0|[1-9]\d*`). -/
def pIntDigits (c : Char) (r : List Char) : List Char × List Char :=
  if c = '0' then ([c], r)
  else (c :: r.takeWhile (·.isDigit), r.dropWhile (·.isDigit))

/-- The optional fraction group `(\.\d+)?`: present only when a dot is
followed by at least one digit. -/
def pFrac (r1 : List Char) : List Char × List Char :=
  match r1 with
  | '.' :: r2 =>
    if (r2.takeWhile (·.isDigit)).isEmpty then ([], r1)
    else (r2.takeWhile (·.isDigit), r2.dropWhile (·.isDigit))
  | _ => ([], r1)

/-- The optional sign of an exponent. -/
def pExpSign (l : List Char) : Bool × List Char :=
  match l with
  | '-' :: q => (true, q)
  | '+' :: q => (false, q)
  | q => (false, q)

/-- The optional exponent group `([eE][+-]?\d+)?`: present only when the
marker and sign are followed by at least one digit. -/
def pExp (r2 : List Char) : Option (Bool × List Char) × List Char :=
  match r2 with
  | e :: r3 =>
    if e = 'e' ∨ e = 'E' then
      let sg := pExpSign r3
      if ((sg.2).takeWhile (·.isDigit)).isEmpty then (none, r2)
      else (some (sg.1, (sg.2).takeWhile (·.isDigit)), (sg.2).dropWhile (·.isDigit))
    else (none, r2)
  | [] => (none, r2)

/-- Parse a JSON number at the head of the input, following the grammar
of `json.decoder`'s number regex: `-?(0|[1-9]\d*)(\.\d+)?([eE][+-]?\d+)?`.
An integer literal yields `.int`; a fraction or exponent yields a
`.float` whose exact decimal value is built with `mkRat`. -/
def pNum (l : List Char) : Option (JValue × List Char) :=
  let sn := pSign l
  match sn.2 with
  | [] => none
  | c :: r =>
    if c.isDigit then
      let ir := pIntDigits c r
      let fr := pFrac ir.2
      let er := pExp fr.2
      if fr.1.isEmpty ∧ er.1 = none then
        some (.int (if sn.1 then -(digitsVal ir.1 : ℤ) else (digitsVal ir.1 : ℤ)), er.2)
      else
        let m : ℕ := digitsVal ir.1 * 10 ^ fr.1.length + digitsVal fr.1
        let q0 : ℚ :=
          match er.1 with
          | none => mkRat m (10 ^ fr.1.length)
          | some (eneg, ds) =>
            if eneg then mkRat m (10 ^ fr.1.length * 10 ^ digitsVal ds)
            else mkRat (m * 10 ^ digitsVal ds) (10 ^ fr.1.length)
        some (.float (if sn.1 then -q0 else q0), er.2)
    else none

mutual

/-- Parse one JSON value at the head of the input (leading whitespace
already skipped), returning it and the rest of the input.  Heads that
match no structured form fall through to the number parser, exactly as
`json.decoder`'s scanner does. -/
def pVal : ℕ → List Char → Option (JValue × List Char)
  | 0, _ => none
  | _ + 1, [] => none
  | fuel + 1, c :: r =>
      if c = '\x7b' then
        match skipWsJ r with
        | [] => none
        | x :: r2 =>
          if x = '\x7d' then some (.obj [], r2)
          else (pMembers fuel (x :: r2)).map (fun p => (.obj p.1, p.2))
      else if c = '[' then
        match skipWsJ r with
        | [] => none
        | x :: r2 =>
          if x = ']' then some (.arr [], r2)
          else (pElems fuel (x :: r2)).map (fun p => (.arr p.1, p.2))
      else if c = '"' then
        (pStr (r.length + 1) r).map (fun p => (.str ⟨p.1⟩, p.2))
      else if c = 't' then
        match r with
        | 'r' :: 'u' :: 'e' :: r2 => some (.bool true, r2)
        | _ => pNum (c :: r)
      else if c = 'f' then
        match r with
        | 'a' :: 'l' :: 's' :: 'e' :: r2 => some (.bool false, r2)
        | _ => pNum (c :: r)
      else if c = 'n' then
        match r with
        | 'u' :: 'l' :: 'l' :: r2 => some (.null, r2)
        | _ => pNum (c :: r)
      else pNum (c :: r)

/-- Parse the members of a JSON object, positioned at a key (whitespace
skipped), up to and including the closing brace. -/
def pMembers : ℕ → List Char → Option (List (String × JValue) × List Char)
  | 0, _ => none
  | _ + 1, [] => none
  | fuel + 1, c :: r0 =>
      if c = '"' then
        match pStr (r0.length + 1) r0 with
        | none => none
        | some (k, r2) =>
          match skipWsJ r2 with
          | [] => none
          | x :: r3 =>
            if x = ':' then
              match pVal fuel (skipWsJ r3) with
              | none => none
              | some (v, r4) =>
                match skipWsJ r4 with
                | [] => none
                | y :: r5 =>
                  if y = ',' then
                    (pMembers fuel (skipWsJ r5)).map (fun p => ((⟨k⟩, v) :: p.1, p.2))
                  else if y = '\x7d' then some ([(⟨k⟩, v)], r5)
                  else none
            else none
      else none

/-- Parse the elements of a JSON array, positioned at an element
(whitespace skipped), up to and including the closing bracket. -/
def pElems : ℕ → List Char → Option (List JValue × List Char)
  | 0, _ => none
  | fuel + 1, l =>
    match pVal fuel l with
    | none => none
    | some (v, r0) =>
      match skipWsJ r0 with
      | [] => none
      | y :: r2 =>
        if y = ',' then (pElems fuel (skipWsJ r2)).map (fun p => (v :: p.1, p.2))
        else if y = ']' then some ([v], r2)
        else none

end

/-- `json.loads`: parse a whole text as one JSON value, allowing
surrounding whitespace; `none` is `JSONDecodeError`.  The fuel bound
`2·|l| + 2` is enough for any input whose parse succeeds within the
modelled fragment (each fuel step past the first consumes input). -/
def jsonParse (l : List Char) : Option JValue :=
  match pVal (2 * l.length + 2) (skipWsJ l) with
  | some (v, r) => if (skipWsJ r).isEmpty then some v else none
  | none => none

/-- The pattern of the first cleaning regex, ```` ```json ````. -/
def jfPat : List Char := ['\x60', '\x60', '\x60', 'j', 's', 'o', 'n']

/-- One left-to-right pass of `re.sub(r'```json\s*', '', text)`: each
non-overlapping occurrence of the fence pattern followed by its maximal
whitespace run is removed; scanning resumes after the removed run.  The
fuel argument (instantiated with the input length) only forces
termination: every step consumes at least one character. -/
def subJFAux : ℕ → List Char → List Char
  | 0, l => l
  | _ + 1, [] => []
  | fuel + 1, c :: l =>
    if jfPat.isPrefixOf (c :: l) then subJFAux fuel (((c :: l).drop 7).dropWhile isWs)
    else c :: subJFAux fuel l

/-- `re.sub(r'```json\s*', '', text)`. -/
def subJsonFence (l : List Char) : List Char :=
  subJFAux l.length l

/-- Python's `str.rstrip()` (ASCII fragment). -/
def pyRStrip (l : List Char) : List Char :=
  (l.reverse.dropWhile isWs).reverse

/-- Python's `str.strip()` (ASCII fragment). -/
def pyStrip (l : List Char) : List Char :=
  pyRStrip (l.dropWhile isWs)

/-- `re.sub(r'```\s*$', '', text)`: the pattern matches exactly when some
``` ``` ``` is followed only by whitespace; the (unique) match then runs to
the end of the string, so the substitution removes the final ``` ``` ```
together with the whitespace around it — equivalently: if the
right-stripped text ends in ``` ``` ```, drop its last three characters,
else return the text unchanged. -/
def removeTrailingFence (l : List Char) : List Char :=
  if ['\x60', '\x60', '\x60'].isSuffixOf (pyRStrip l) then
    (pyRStrip l).take ((pyRStrip l).length - 3)
  else l

/-- `GeminiClient._clean_response_text`. -/
def cleanResponseText (l : List Char) : List Char :=
  pyStrip (removeTrailingFence (subJsonFence l))

/-- The brace-free segment check used by the extraction regex
`\{[^{}]*"sentiment_score"[^{}]*\}`: positioned right after a `{`, the
match succeeds exactly when the run of brace-free characters ends at a
`}` and contains the quoted key. -/
def extractSeg (l : List Char) : Option (List Char) :=
  let seg := l.takeWhile (fun c => !(c == '\x7b') && !(c == '\x7d'))
  let rest := l.dropWhile (fun c => !(c == '\x7b') && !(c == '\x7d'))
  match rest with
  | '\x7d' :: _ =>
    if containsSub seg "\"sentiment_score\"".data then some ('\x7b' :: (seg ++ ['\x7d'])) else none
  | _ => none

/-- `re.search(r'\{[^{}]*"sentiment_score"[^{}]*\}', text, re.DOTALL)`:
the leftmost brace-delimited, brace-free segment containing the quoted
key. -/
def extractJson : List Char → Option (List Char)
  | [] => none
  | c :: l =>
    if c = '\x7b' then
      match extractSeg l with
      | some m => some m
      | none => extractJson l
    else extractJson l

/-- `GeminiClient._is_truncated_json`. -/
def isTruncatedJson (l : List Char) : Bool :=
  let t := pyStrip l
  (t.head? == some '\x7b') && !(t.getLast? == some '\x7d') &&
    containsSub t "\"sentiment_score\"".data

/-- `GeminiClient._fix_truncated_json`. -/
def fixTruncatedJson (l : List Char) : List Char :=
  let t := pyStrip l
  let t2 :=
    if ['"', ':'].isSuffixOf t then t ++ " 0.95".data
    else if [':', ' '].isSuffixOf t then t ++ "0.95".data
    else if t.getLast? == some ',' then t.dropLast
    else t
  if t2.getLast? == some '\x7d' then t2 else t2 ++ ['\x7d']

/-- The decode failures that escape `_parse_api_response` (the stage
chain catches only `json.JSONDecodeError`): a missing `sentiment_score`
key raises `GeminiAPIError`; a score or confidence value that `int()`
or `float()` cannot convert — or a membership/subscript on a non-dict
value — raises an uncaught `ValueError`/`TypeError`, collapsed here into
`convError`; an out-of-range score raises the `InvalidScore`
`GeminiAPIError`. -/
inductive DErr where
  | missingScore : DErr
  | invalidScore : ℤ → DErr
  | convError : DErr
deriving DecidableEq

/-- The `SentimentResponse` dataclass.  `sentiment_label`,
`explanation` and `language_detected` hold whatever JSON value
`data.get` produced (the code never coerces them); `processing_time`
is zero at construction. -/
structure SentimentResponse where
  sentiment_score : ℤ
  sentiment_label : JValue
  confidence : ℚ
  explanation : JValue
  language_detected : JValue
  processing_time : ℚ

/-- The fixed score→label table (both `score_to_label` dicts).  Callers
only apply it to scores in `[1,5]`; the final branch is unreachable
there. -/
def scoreToLabel (s : ℤ) : String :=
  if s = 1 then "Very Negative"
  else if s = 2 then "Negative"
  else if s = 3 then "Neutral"
  else if s = 4 then "Positive"
  else "Very Positive"

/-- `GeminiClient._create_sentiment_response`. -/
def createSentimentResponse : JValue → Except DErr SentimentResponse
  | .obj kvs =>
    match pyGet kvs "sentiment_score" with
    | none => .error .missingScore
    | some sv =>
      match pyIntOf sv with
      | none => .error .convError
      | some score =>
        if score < 1 ∨ 5 < score then .error (.invalidScore score)
        else
          match (match pyGet kvs "confidence" with
                 | none => some (0.95 : ℚ)
                 | some cv => pyFloatOf cv) with
          | none => .error .convError
          | some conf =>
            .ok { sentiment_score := score,
                  sentiment_label := (pyGet kvs "sentiment_label").getD (.str (scoreToLabel score)),
                  confidence := conf,
                  explanation := (pyGet kvs "explanation").getD (.str "Sentiment analysis completed"),
                  language_detected := (pyGet kvs "language_detected").getD (.str "en"),
                  processing_time := 0 }
  | .str s =>
    if containsSub s.data "sentiment_score".data then .error .convError else .error .missingScore
  | .arr xs =>
    if xs.any (fun v => match v with | .str s => s == "sentiment_score" | _ => false)
    then .error .convError else .error .missingScore
  | _ => .error .convError

/-- Keywords mapping to score 5 in the heuristic fallback. -/
def kwGroup5 : List (List Char) :=
  ["very positive".data, "excellent".data, "amazing".data, "fantastic".data]

/-- Keywords mapping to score 4. -/
def kwGroup4 : List (List Char) :=
  ["positive".data, "good".data, "great".data, "happy".data]

/-- Keywords mapping to score 3. -/
def kwGroup3 : List (List Char) :=
  ["neutral".data, "factual".data, "informational".data]

/-- Keywords mapping to score 2. -/
def kwGroup2 : List (List Char) :=
  ["negative".data, "bad".data, "poor".data, "disappointing".data]

/-- Keywords mapping to score 1. -/
def kwGroup1 : List (List Char) :=
  ["very negative".data, "terrible".data, "awful".data, "hate".data]

/-- The keyword cascade of `_infer_sentiment_from_text`. -/
def inferScore (lower : List Char) : ℤ :=
  if kwGroup5.any (fun w => containsSub lower w) then 5
  else if kwGroup4.any (fun w => containsSub lower w) then 4
  else if kwGroup3.any (fun w => containsSub lower w) then 3
  else if kwGroup2.any (fun w => containsSub lower w) then 2
  else if kwGroup1.any (fun w => containsSub lower w) then 1
  else 3

/-- `GeminiClient._infer_sentiment_from_text`. -/
def inferSentimentFromText (text : List Char) (expectedLanguage : String) : SentimentResponse :=
  let score := inferScore (text.map pyLower)
  { sentiment_score := score,
    sentiment_label := .str (scoreToLabel score),
    confidence := 0.7,
    explanation := .str "Sentiment inferred from response text",
    language_detected := .str (if expectedLanguage ≠ "auto" then expectedLanguage else "en"),
    processing_time := 0 }

/-- Stages 4 (truncation repair) and 5 (heuristic fallback) of
`_parse_api_response`, reached when direct parse and extraction both
fail to parse. -/
def parseStage34 (cleaned : List Char) (expectedLanguage : String) :
    Except DErr SentimentResponse :=
  if isTruncatedJson cleaned then
    match jsonParse (fixTruncatedJson cleaned) with
    | some data => createSentimentResponse data
    | none => .ok (inferSentimentFromText cleaned expectedLanguage)
  else .ok (inferSentimentFromText cleaned expectedLanguage)

/-- `GeminiClient._parse_api_response`: clean, then direct parse, then
extraction, then truncation repair, then the unconditional heuristic
fallback; `createSentimentResponse` failures propagate out of every
stage because the chain catches only `json.JSONDecodeError`. -/
def parseApiResponse (responseText : String) (expectedLanguage : String) :
    Except DErr SentimentResponse :=
  let cleaned := cleanResponseText responseText.data
  match jsonParse cleaned with
  | some data => createSentimentResponse data
  | none =>
    match extractJson cleaned with
    | some m =>
      match jsonParse m with
      | some data => createSentimentResponse data
      | none => parseStage34 cleaned expectedLanguage
    | none => parseStage34 cleaned expectedLanguage

/-- The JSON value recovered by the first parse stage that succeeds
(direct parse, extraction, truncation repair), if any. -/
def pipelineParsed (cleaned : List Char) : Option JValue :=
  match jsonParse cleaned with
  | some v => some v
  | none =>
    match extractJson cleaned with
    | some m =>
      match jsonParse m with
      | some v => some v
      | none => if isTruncatedJson cleaned then jsonParse (fixTruncatedJson cleaned) else none
    | none => if isTruncatedJson cleaned then jsonParse (fixTruncatedJson cleaned) else none

/-- The outcome the environment supplies for one HTTP POST attempt. -/
inductive HAttempt where
  | timeout : HAttempt
  | connError : HAttempt
  | resp : ℕ → Option String → JValue → HAttempt

/-- The `GeminiAPIError` kinds raised inside the attempt loop (all of
them are caught by the `except GeminiAPIError` handler and retried). -/
inductive ApiFail where
  | httpStatus : ℕ → ApiFail
  | rateLimit : ApiFail
  | noCandidates : ApiFail
  | noContent : ApiFail
  | truncated : ApiFail
  | noParts : ApiFail
  | emptyParts : ApiFail
  | emptyText : ApiFail
deriving DecidableEq

/-- Outcome of envelope validation: a retryable `GeminiAPIError`, or an
uncaught Python-level error (`TypeError`/`KeyError`/...) that escapes
the handlers. -/
inductive VErr where
  | gem : ApiFail → VErr
  | py : VErr
deriving DecidableEq

/-- Python's `key in value` where it does not raise. -/
def pyHasKey : JValue → String → Option Bool
  | .obj kvs, k => some (pyGet kvs k).isSome
  | .str s, k => some (containsSub s.data k.data)
  | .arr xs, k =>
    some (xs.any (fun v => match v with | .str s2 => s2 == k | _ => false))
  | _, _ => none

/-- Python's `value[key]`; `none` is a `TypeError`/`KeyError`. -/
def pySubscript : JValue → String → Option JValue
  | .obj kvs, k => pyGet kvs k
  | _, _ => none

/-- Python's `value[0]`; `none` is a `TypeError`/`KeyError`/`IndexError`. -/
def pyIndex0 : JValue → Option JValue
  | .arr (x :: _) => some x
  | .str s => match s.data with | c :: _ => some (.str ⟨[c]⟩) | [] => none
  | _ => none

/-- The structural checks `_make_api_request` performs on a parsed HTTP
200 envelope (`src/gemini_client.py` lines 198-225), returning the
extracted text part. -/
def validateEnvelope (rd : JValue) : Except VErr JValue :=
  match pyHasKey rd "candidates" with
  | none => .error .py
  | some hasC =>
    if !hasC then .error (.gem .noCandidates)
    else
      match pySubscript rd "candidates" with
      | none => .error .py
      | some cands =>
        if pyFalsy cands then .error (.gem .noCandidates)
        else
          match pyIndex0 cands with
          | none => .error .py
          | some cand =>
            match pyHasKey cand "content" with
            | none => .error .py
            | some hasCont =>
              if !hasCont then .error (.gem .noContent)
              else
                match pySubscript cand "content" with
                | none => .error .py
                | some content =>
                  match pyHasKey content "parts" with
                  | none => .error .py
                  | some hasParts =>
                    if !hasParts then
                      match cand with
                      | .obj kvs =>
                        (match pyGet kvs "finishReason" with
                         | some (.str fr) =>
                           if fr = "MAX_TOKENS" then .error (.gem .truncated)
                           else .error (.gem .noParts)
                         | _ => .error (.gem .noParts))
                      | _ => .error .py
                    else
                      match pySubscript content "parts" with
                      | none => .error .py
                      | some parts =>
                        if pyFalsy parts then .error (.gem .emptyParts)
                        else
                          match pyIndex0 parts with
                          | none => .error .py
                          | some part =>
                            match part with
                            | .obj pkvs =>
                              (let txt := (pyGet pkvs "text").getD (.str "")
                               if pyFalsy txt then .error (.gem .emptyText) else .ok txt)
                            | _ => .error .py

/-- How `_make_api_request` terminates: the last classified error is
re-raised wrapped with the total attempt count; `headerError` is the
uncaught `ValueError` of `int()` on a malformed `Retry-After`;
`maxRetriesExceeded` is the fall-through raise after the loop,
reachable only with a zero retry budget. -/
inductive TransportErr where
  | wrappedTransport : ℕ → TransportErr
  | wrappedApi : ℕ → ApiFail → TransportErr
  | headerError : TransportErr
  | pyError : TransportErr
  | maxRetriesExceeded : TransportErr
deriving DecidableEq

/-- The observable outcome of one `_make_api_request` call: its result,
the sleeps performed in order (backoff pauses and `Retry-After` waits,
in seconds), and the number of POSTs issued. -/
structure RunResult where
  result : Except TransportErr JValue
  sleeps : List ℤ
  posts : ℕ

/-- The attempt loop of `_make_api_request` (lines 165-238): `rem` is
the number of loop iterations left (`range(max_retries)` positions),
`attempt` the current index; before every attempt after the first the
backoff pause `min(2^attempt, 60)` is recorded, exactly as
`time.sleep` is called at the top of the loop body. -/
def runLoop (maxRetries : ℕ) (oracle : ℕ → HAttempt) :
    ℕ → ℕ → List ℤ → ℕ → RunResult
  | 0, _, sleeps, posts => ⟨.error .maxRetriesExceeded, sleeps, posts⟩
  | rem + 1, attempt, sleeps, posts =>
    let sleeps := if 0 < attempt then sleeps ++ [((min (2 ^ attempt) 60 : ℕ) : ℤ)] else sleeps
    match oracle attempt with
    | .timeout =>
      if attempt = maxRetries - 1 then ⟨.error (.wrappedTransport maxRetries), sleeps, posts + 1⟩
      else runLoop maxRetries oracle rem (attempt + 1) sleeps (posts + 1)
    | .connError =>
      if attempt = maxRetries - 1 then ⟨.error (.wrappedTransport maxRetries), sleeps, posts + 1⟩
      else runLoop maxRetries oracle rem (attempt + 1) sleeps (posts + 1)
    | .resp status retryAfter body =>
      if status = 429 then
        match pyIntStr (retryAfter.getD "60") with
        | none => ⟨.error .headerError, sleeps, posts + 1⟩
        | some ra =>
          if attempt < maxRetries - 1 then
            runLoop maxRetries oracle rem (attempt + 1) (sleeps ++ [ra]) (posts + 1)
          else ⟨.error (.wrappedApi maxRetries .rateLimit), sleeps, posts + 1⟩
      else if status ≠ 200 then
        if attempt = maxRetries - 1 then
          ⟨.error (.wrappedApi maxRetries (.httpStatus status)), sleeps, posts + 1⟩
        else runLoop maxRetries oracle rem (attempt + 1) sleeps (posts + 1)
      else
        match validateEnvelope body with
        | .ok txt => ⟨.ok txt, sleeps, posts + 1⟩
        | .error (.gem e) =>
          if attempt = maxRetries - 1 then ⟨.error (.wrappedApi maxRetries e), sleeps, posts + 1⟩
          else runLoop maxRetries oracle rem (attempt + 1) sleeps (posts + 1)
        | .error .py => ⟨.error .pyError, sleeps, posts + 1⟩

/-- `GeminiClient._make_api_request` with retry budget `maxRetries`,
where `oracle n` is what the network returns for attempt `n`. -/
def makeApiRequest (maxRetries : ℕ) (oracle : ℕ → HAttempt) : RunResult :=
  runLoop maxRetries oracle maxRetries 0 [] 0

/-- A structurally valid HTTP 200 envelope whose part text is a clean
JSON verdict. -/
def goodBody : JValue :=
  .obj [("candidates", .arr [.obj [("content",
    .obj [("parts", .arr [.obj [("text", .str "\x7b\"sentiment_score\": 3\x7d")]])])]])]

/-- A 200 envelope whose candidate has `content` without `parts` and
reports `finishReason = MAX_TOKENS`: the truncation case. -/
def truncBody : JValue :=
  .obj [("candidates", .arr [.obj [("content", .obj []),
    ("finishReason", .str "MAX_TOKENS")]])]

/-- The decode input of C7: a clean JSON object whose only key is
`sentiment_score`, with value `s`. -/
def scoreOnlyReply (s : ℤ) : String :=
  "\x7b\"sentiment_score\": " ++ toString s ++ "\x7d"

/-- The characters a successful JSON value parse can end with. -/
def goodEnd (c : Char) : Prop :=
  c = '\x7d' ∨ c = ']' ∨ c = '"' ∨ c = 'e' ∨ c = 'l' ∨ c.isDigit = true

instance (c : Char) : Decidable (goodEnd c) := by
  unfold goodEnd
  infer_instance

theorem isWs_of_isJsonWs {c : Char} (h : isJsonWs c = true) : isWs c = true := by
  simp only [isJsonWs, Bool.or_eq_true, decide_eq_true_eq] at h
  simp only [isWs, Bool.or_eq_true, decide_eq_true_eq]
  tauto

/-- Restructuring of `parseApiResponse`: the result is determined by the
first parse stage to succeed, with the fallback when none does. -/
theorem parseApiResponse_eq (raw lang : String) :
    parseApiResponse raw lang =
      match pipelineParsed (cleanResponseText raw.data) with
      | some v => createSentimentResponse v
      | none => .ok (inferSentimentFromText (cleanResponseText raw.data) lang) := by
  unfold parseApiResponse pipelineParsed parseStage34
  cases hj : jsonParse (cleanResponseText raw.data) with
  | some v => simp only [hj]
  | none =>
    simp only [hj]
    cases he : extractJson (cleanResponseText raw.data) with
    | some m =>
      simp only [he]
      cases hm : jsonParse m with
      | some w => simp only [hm]
      | none =>
        simp only [hm]
        cases ht : isTruncatedJson (cleanResponseText raw.data) with
        | false => simp only [ht, if_false, Bool.false_eq_true]
        | true => simp only [ht, if_true]
    | none =>
      simp only [he]
      cases ht : isTruncatedJson (cleanResponseText raw.data) with
      | false => simp only [ht, if_false, Bool.false_eq_true]
      | true => simp only [ht, if_true]

/-- C1 (counterexample): decoding the syntactically valid JSON reply
`{}` — which carries no out-of-range score — fails with the missing-key
error, so an out-of-range score is not the single failing case. -/
theorem c1_counterexample :
    parseApiResponse "\x7b\x7d" "en" = .error .missingScore ∧
      jsonParse (cleanResponseText "\x7b\x7d".data) = some (.obj []) :=
  ⟨rfl, rfl⟩

/-- C1 (amended): `decode` fails only when the first parse stage to
succeed hands a JSON value to result construction and that construction
fails (missing, unconvertible or out-of-range score, or unconvertible
confidence); whenever no parse stage succeeds, the unconditional
heuristic fallback produces a verdict. -/
theorem c1_decode_total_amended (raw lang : String) :
    (pipelineParsed (cleanResponseText raw.data) = none →
      parseApiResponse raw lang =
        .ok (inferSentimentFromText (cleanResponseText raw.data) lang)) ∧
    (∀ e, parseApiResponse raw lang = .error e →
      ∃ v, pipelineParsed (cleanResponseText raw.data) = some v ∧
        createSentimentResponse v = .error e) := by
  constructor
  · intro h
    rw [parseApiResponse_eq, h]
  · intro e he
    rw [parseApiResponse_eq] at he
    cases hp : pipelineParsed (cleanResponseText raw.data) with
    | none => rw [hp] at he; cases he
    | some v => rw [hp] at he; exact ⟨v, rfl, he⟩

/-- C1 (witness): an unparseable reply reaches the fallback. -/
theorem c1_decode_total_witness :
    parseApiResponse "no json here" "en" =
      .ok (inferSentimentFromText (cleanResponseText "no json here".data) "en") :=
  (c1_decode_total_amended "no json here" "en").1 rfl

/-- C2: whenever the parse stage that first succeeds yields a JSON
object whose `sentiment_score` converts to an integer outside `[1,5]`,
`decode` fails with the `InvalidScore` error and no fallback stage
runs. -/
theorem c2_invalid_score_fails (raw lang : String) (kvs : List (String × JValue))
    (sv : JValue) (s : ℤ)
    (hv : pipelineParsed (cleanResponseText raw.data) = some (.obj kvs))
    (hs : pyGet kvs "sentiment_score" = some sv)
    (hi : pyIntOf sv = some s)
    (hrange : s < 1 ∨ 5 < s) :
    parseApiResponse raw lang = .error (.invalidScore s) := by
  rw [parseApiResponse_eq, hv]
  simp only [createSentimentResponse, hs, hi]
  rw [if_pos hrange]

/-- C2 (witness): `sentiment_score = 7` fails with `InvalidScore 7`. -/
theorem c2_invalid_score_witness :
    parseApiResponse "\x7b\"sentiment_score\": 7\x7d" "en" =
      .error (.invalidScore 7) :=
  c2_invalid_score_fails _ "en" [("sentiment_score", .int 7)] (.int 7) 7 rfl rfl rfl
    (by norm_num)

/-- C4 (counterexample): a reply carrying an explicit `confidence` of 2
decodes successfully with confidence 2, violating the claimed invariant
`confidence ≤ 1`. -/
theorem c4_counterexample :
    parseApiResponse "\x7b\"sentiment_score\": 3, \"confidence\": 2\x7d" "en" =
      .ok { sentiment_score := 3, sentiment_label := .str "Neutral", confidence := 2,
            explanation := .str "Sentiment analysis completed",
            language_detected := .str "en", processing_time := 0 } ∧
      ¬((2 : ℚ) ≤ 1) :=
  ⟨rfl, by norm_num⟩

/-- C4 (amended): every decoded result's confidence is the fallback's
0.7 or the default 0.95 — both inside `[0,1]` — except when the parsed
JSON supplies an explicit `confidence`, which is passed through
`float()` unvalidated. -/
theorem c4_confidence_amended (raw lang : String) (r : SentimentResponse)
    (h : parseApiResponse raw lang = .ok r) :
    r.confidence = 0.7 ∨ r.confidence = 0.95 ∨
      ∃ kvs cv, pipelineParsed (cleanResponseText raw.data) = some (.obj kvs) ∧
        pyGet kvs "confidence" = some cv ∧ pyFloatOf cv = some r.confidence := by
  rw [parseApiResponse_eq] at h
  cases hp : pipelineParsed (cleanResponseText raw.data) with
  | none =>
    rw [hp] at h
    cases h
    left; rfl
  | some v =>
    rw [hp] at h
    cases v with
    | obj kvs =>
      simp only [createSentimentResponse] at h
      cases hs : pyGet kvs "sentiment_score" with
      | none => simp only [hs] at h; cases h
      | some sv =>
        simp only [hs] at h
        cases hi : pyIntOf sv with
        | none => simp only [hi] at h; cases h
        | some s =>
          simp only [hi] at h
          by_cases hr : s < 1 ∨ 5 < s
          · rw [if_pos hr] at h; cases h
          · rw [if_neg hr] at h
            cases hc : pyGet kvs "confidence" with
            | none =>
              simp only [hc] at h
              cases h
              right; left; rfl
            | some cv =>
              simp only [hc] at h
              cases hf : pyFloatOf cv with
              | none => simp only [hf] at h; cases h
              | some q =>
                simp only [hf] at h
                cases h
                right; right; exact ⟨kvs, cv, rfl, hc, by rw [hf]⟩
    | null => simp only [createSentimentResponse] at h; cases h
    | bool b => simp only [createSentimentResponse] at h; cases h
    | int n => simp only [createSentimentResponse] at h; cases h
    | float q => simp only [createSentimentResponse] at h; cases h
    | str s =>
      simp only [createSentimentResponse] at h
      split at h <;> cases h
    | arr xs =>
      simp only [createSentimentResponse] at h
      split at h <;> cases h

/-- C4 (witness): the fallback result's confidence is covered. -/
theorem c4_confidence_witness :
    (inferSentimentFromText (cleanResponseText "zzz".data) "en").confidence = 0.7 ∨
    (inferSentimentFromText (cleanResponseText "zzz".data) "en").confidence = 0.95 ∨
      ∃ kvs cv, pipelineParsed (cleanResponseText "zzz".data) = some (.obj kvs) ∧
        pyGet kvs "confidence" = some cv ∧
        pyFloatOf cv = some (inferSentimentFromText (cleanResponseText "zzz".data) "en").confidence :=
  c4_confidence_amended "zzz" "en" _ rfl

/-- C6: with a retry budget of 3 and transport timeouts on every
attempt, the call makes exactly 3 POSTs, fails with the transport error
wrapped with the attempt count 3, and its only sleeps are the backoff
pauses of 2s before attempt 2 and 4s before attempt 3 (none after the
final attempt). -/
theorem c6_transport_exhaustion (oracle : ℕ → HAttempt)
    (h0 : oracle 0 = .timeout) (h1 : oracle 1 = .timeout) (h2 : oracle 2 = .timeout) :
    makeApiRequest 3 oracle = ⟨.error (.wrappedTransport 3), [2, 4], 3⟩ := by
  simp [makeApiRequest, runLoop, h0, h1, h2]

/-- C6 (witness). -/
theorem c6_transport_witness :
    makeApiRequest 3 (fun _ => .timeout) = ⟨.error (.wrappedTransport 3), [2, 4], 3⟩ :=
  c6_transport_exhaustion (fun _ => .timeout) rfl rfl rfl

/-- C3 (counterexample): first attempt 429 with `Retry-After: 5`,
second attempt a valid 200: the call succeeds, but the loop sleeps
twice — the 5s `Retry-After` wait *and* the 2s backoff pause that
precedes every retry attempt — so the sleeps are `[5, 2]`, not a single
5-second wait. -/
theorem c3_counterexample :
    makeApiRequest 3
        (fun n => if n = 0 then .resp 429 (some "5") .null else .resp 200 none goodBody) =
      ⟨.ok (.str "\x7b\"sentiment_score\": 3\x7d"), [5, 2], 2⟩ ∧
    ([5, 2] : List ℤ) ≠ [5] :=
  ⟨rfl, by decide⟩

/-- C3 (amended): a 429 carrying `Retry-After: 5` followed by a valid
200 succeeds on the second attempt after two sleeps: the 5-second
`Retry-After` wait and then the 2-second pre-attempt backoff pause. -/
theorem c3_retry_after_amended (maxR : ℕ) (hm : 2 ≤ maxR) (oracle : ℕ → HAttempt)
    (b0 b1 txt : JValue)
    (h0 : oracle 0 = .resp 429 (some "5") b0)
    (h1 : oracle 1 = .resp 200 none b1)
    (hv : validateEnvelope b1 = .ok txt) :
    makeApiRequest maxR oracle = ⟨.ok txt, [5, 2], 2⟩ := by
  obtain ⟨k, rfl⟩ : ∃ k, maxR = k + 2 := ⟨maxR - 2, by omega⟩
  have h5 : pyIntStr "5" = some 5 := rfl
  simp [makeApiRequest, runLoop, h0, h1, hv, h5]

/-- C3 (witness). -/
theorem c3_retry_after_witness :
    makeApiRequest 3
        (fun n => if n = 0 then .resp 429 (some "5") .null else .resp 200 none goodBody) =
      ⟨.ok (.str "\x7b\"sentiment_score\": 3\x7d"), [5, 2], 2⟩ :=
  c3_retry_after_amended 3 (by norm_num)
    (fun n => if n = 0 then .resp 429 (some "5") .null else .resp 200 none goodBody)
    .null goodBody (.str "\x7b\"sentiment_score\": 3\x7d") rfl rfl rfl

/-- C5 (counterexample): with attempts remaining, a truncated envelope
(content without `parts`, `finishReason = MAX_TOKENS`) does not make
`send` fail — the raised truncation error is caught by the
`except GeminiAPIError` handler and retried like any malformed
envelope, and the call succeeds on the next attempt. -/
theorem c5_counterexample :
    validateEnvelope truncBody = .error (.gem .truncated) ∧
    makeApiRequest 2 (fun n => if n = 0 then .resp 200 none truncBody else .resp 200 none goodBody) =
      ⟨.ok (.str "\x7b\"sentiment_score\": 3\x7d"), [2], 2⟩ :=
  ⟨rfl, rfl⟩

/-- C5 (amended): the truncated envelope is classified as an error kind
distinct from the other structural violations, but it is retried
exactly like them, consuming one attempt; `send` fails with the
truncation kind (wrapped with the attempt count) only when it arrives
on the final attempt. -/
theorem c5_truncation_retried_amended :
    (ApiFail.truncated ≠ ApiFail.noParts ∧ ApiFail.truncated ≠ ApiFail.noCandidates ∧
      ApiFail.truncated ≠ ApiFail.noContent ∧ ApiFail.truncated ≠ ApiFail.emptyParts ∧
      ApiFail.truncated ≠ ApiFail.emptyText) ∧
    (∀ (maxR : ℕ) (oracle : ℕ → HAttempt) (b0 b1 txt : JValue), 2 ≤ maxR →
      oracle 0 = .resp 200 none b0 → validateEnvelope b0 = .error (.gem .truncated) →
      oracle 1 = .resp 200 none b1 → validateEnvelope b1 = .ok txt →
      makeApiRequest maxR oracle = ⟨.ok txt, [2], 2⟩) ∧
    (∀ (oracle : ℕ → HAttempt) (b0 : JValue),
      oracle 0 = .resp 200 none b0 → validateEnvelope b0 = .error (.gem .truncated) →
      makeApiRequest 1 oracle = ⟨.error (.wrappedApi 1 .truncated), [], 1⟩) := by
  refine ⟨⟨by decide, by decide, by decide, by decide, by decide⟩, ?_, ?_⟩
  · intro maxR oracle b0 b1 txt hm h0 hv0 h1 hv1
    obtain ⟨k, rfl⟩ : ∃ k, maxR = k + 2 := ⟨maxR - 2, by omega⟩
    simp [makeApiRequest, runLoop, h0, hv0, h1, hv1]
  · intro oracle b0 h0 hv0
    simp [makeApiRequest, runLoop, h0, hv0]

/-- C5 (witness). -/
theorem c5_truncation_retried_witness :
    makeApiRequest 2
        (fun n => if n = 0 then .resp 200 none truncBody else .resp 200 none goodBody) =
      ⟨.ok (.str "\x7b\"sentiment_score\": 3\x7d"), [2], 2⟩ :=
  c5_truncation_retried_amended.2.1 2
    (fun n => if n = 0 then .resp 200 none truncBody else .resp 200 none goodBody)
    truncBody goodBody (.str "\x7b\"sentiment_score\": 3\x7d") (by norm_num) rfl rfl rfl rfl

/-- C7: for every integer score in `[1,5]`, the clean score-only reply
decodes to the fixed table label for that score with the default
confidence 0.95. -/
theorem c7_score_label_table (s : ℤ) (lang : String) (h1 : 1 ≤ s) (h5 : s ≤ 5) :
    parseApiResponse (scoreOnlyReply s) lang =
      .ok { sentiment_score := s, sentiment_label := .str (scoreToLabel s),
            confidence := 0.95, explanation := .str "Sentiment analysis completed",
            language_detected := .str "en", processing_time := 0 } := by
  interval_cases s <;> rfl

/-- C7 (witness). -/
theorem c7_score_label_witness :
    parseApiResponse (scoreOnlyReply 3) "en" =
      .ok { sentiment_score := 3, sentiment_label := .str (scoreToLabel 3),
            confidence := 0.95, explanation := .str "Sentiment analysis completed",
            language_detected := .str "en", processing_time := 0 } :=
  c7_score_label_table 3 "en" (by norm_num) (by norm_num)

/-- C9: the truncated reply `{"sentiment_score": 4, "confidence":`
defeats direct parse and extraction, passes the truncation test, is
repaired by appending ` 0.95` (the key ends in `":`) and a closing
brace, and decodes to score 4, label Positive, confidence 0.95. -/
theorem c9_truncation_repair :
    jsonParse (cleanResponseText "\x7b\"sentiment_score\": 4, \"confidence\":".data) = none ∧
    extractJson (cleanResponseText "\x7b\"sentiment_score\": 4, \"confidence\":".data) = none ∧
    isTruncatedJson (cleanResponseText "\x7b\"sentiment_score\": 4, \"confidence\":".data) = true ∧
    fixTruncatedJson (cleanResponseText "\x7b\"sentiment_score\": 4, \"confidence\":".data) =
      "\x7b\"sentiment_score\": 4, \"confidence\": 0.95\x7d".data ∧
    parseApiResponse "\x7b\"sentiment_score\": 4, \"confidence\":" "en" =
      .ok { sentiment_score := 4, sentiment_label := .str "Positive",
            confidence := 0.95, explanation := .str "Sentiment analysis completed",
            language_detected := .str "en", processing_time := 0 } :=
  ⟨rfl, rfl, rfl, rfl, by with_unfolding_all rfl⟩

/-- C10: if the lower-cased text contains "very negative" but none of
the keywords of the score-5, score-4 and score-3 groups, the heuristic
fallback returns score 2 with label "Negative" (not score 1): substring
matching lets "very negative" satisfy the "negative" keyword of the
score-2 group, which is checked before the score-1 group. -/
theorem c10_very_negative_scores_two (t : List Char) (lang : String)
    (hvn : containsSub (t.map pyLower) "very negative".data = true)
    (k1 : containsSub (t.map pyLower) "very positive".data = false)
    (k2 : containsSub (t.map pyLower) "excellent".data = false)
    (k3 : containsSub (t.map pyLower) "amazing".data = false)
    (k4 : containsSub (t.map pyLower) "fantastic".data = false)
    (k5 : containsSub (t.map pyLower) "positive".data = false)
    (k6 : containsSub (t.map pyLower) "good".data = false)
    (k7 : containsSub (t.map pyLower) "great".data = false)
    (k8 : containsSub (t.map pyLower) "happy".data = false)
    (k9 : containsSub (t.map pyLower) "neutral".data = false)
    (k10 : containsSub (t.map pyLower) "factual".data = false)
    (k11 : containsSub (t.map pyLower) "informational".data = false) :
    (inferSentimentFromText t lang).sentiment_score = 2 ∧
      (inferSentimentFromText t lang).sentiment_label = .str "Negative" := by
  have hneg : containsSub (t.map pyLower) "negative".data = true := by
    simp only [containsSub, decide_eq_true_eq] at hvn ⊢
    exact List.IsInfix.trans (by decide) hvn
  unfold inferSentimentFromText inferScore
  simp [kwGroup5, kwGroup4, kwGroup3, kwGroup2, k1, k2, k3, k4, k5, k6, k7, k8, k9, k10, k11,
    hneg, scoreToLabel]

/-- C10 (witness): the literal text "very negative". -/
theorem c10_very_negative_witness :
    (inferSentimentFromText "very negative".data "en").sentiment_score = 2 ∧
      (inferSentimentFromText "very negative".data "en").sentiment_label = .str "Negative" :=
  c10_very_negative_scores_two "very negative".data "en" (by decide) (by decide) (by decide)
    (by decide) (by decide) (by decide) (by decide) (by decide) (by decide) (by decide)
    (by decide) (by decide)

theorem exists_append_extend {α} {X s : List α} (pre : List α)
    (h : ∃ u, X = u ++ s) : ∃ u2, pre ++ X = u2 ++ s := by
  obtain ⟨u, hu⟩ := h
  exact ⟨pre ++ u, by simp [hu]⟩

theorem pStr_map_shape {n : ℕ}
    (ih : ∀ l cs r, pStr n l = some (cs, r) → ∃ u, l = u ++ '"' :: r)
    {X cs r : List Char} {ch : Char}
    (h : (pStr n X).map (fun p => (ch :: p.1, p.2)) = some (cs, r)) :
    ∃ u, X = u ++ '"' :: r := by
  simp only [Option.map_eq_some'] at h
  obtain ⟨⟨cs2, r2⟩, hp, hq⟩ := h
  injection hq with h1 h2
  subst h2
  exact ih _ _ _ hp

/-- A successful string-body parse consumed everything up to and
including a closing quote. -/
theorem pStr_shape : ∀ (fuel : ℕ) (l cs r : List Char),
    pStr fuel l = some (cs, r) → ∃ u, l = u ++ '"' :: r := by
  intro fuel
  induction fuel with
  | zero => intro l cs r h; simp [pStr] at h
  | succ n ih =>
    intro l cs r h
    cases l with
    | nil => simp [pStr] at h
    | cons c l2 =>
      simp only [pStr] at h
      by_cases hq : c = '"'
      · rw [if_pos hq] at h
        injection h with h1
        injection h1 with h1 h2
        subst hq h2
        exact ⟨[], rfl⟩
      · rw [if_neg hq] at h
        by_cases hb : c = '\\'
        · rw [if_pos hb] at h
          subst hb
          split at h
          · rename_i h1 h2 h3 h4 r2
            split at h
            · rename_i a b c2 d ha hb2 hc2 hd
              split at h
              · rename_i g1 g2 g3 g4 r3
                split at h
                · rename_i a2 b2 c3 d2 ha2 hb3 hc3 hd2
                  split at h
                  · exact exists_append_extend
                      ['\\', 'u', h1, h2, h3, h4, '\\', 'u', g1, g2, g3, g4]
                      (pStr_map_shape ih h)
                  · exact exists_append_extend ['\\', 'u', h1, h2, h3, h4]
                      (pStr_map_shape ih h)
                · exact exists_append_extend ['\\', 'u', h1, h2, h3, h4]
                    (pStr_map_shape ih h)
              · exact exists_append_extend ['\\', 'u', h1, h2, h3, h4]
                  (pStr_map_shape ih h)
            · cases h
          · rename_i e r2 hne
            split at h
            · rename_i ec hec
              exact exists_append_extend ['\\', e] (pStr_map_shape ih h)
            · cases h
          · cases h
        · rw [if_neg hb] at h
          by_cases hctl : c.toNat < 32
          · rw [if_pos hctl] at h; cases h
          · rw [if_neg hctl] at h
            exact exists_append_extend [c] (pStr_map_shape ih h)

theorem exists_append_extend2 {X r : List Char} (pre : List Char)
    (h : ∃ u d, X = u ++ d :: r ∧ d.isDigit = true) :
    ∃ u d, pre ++ X = u ++ d :: r ∧ d.isDigit = true := by
  obtain ⟨u, d, hu, hd⟩ := h
  exact ⟨pre ++ u, d, by simp [hu], hd⟩

theorem digit_run_shape {X : List Char}
    (h : (X.takeWhile (·.isDigit)).isEmpty = false) :
    ∃ u d, X = u ++ d :: X.dropWhile (·.isDigit) ∧ d.isDigit = true := by
  have hX : X.takeWhile (·.isDigit) ++ X.dropWhile (·.isDigit) = X := by
    exact List.takeWhile_append_dropWhile ..
  rcases List.eq_nil_or_concat (X.takeWhile (·.isDigit)) with hnil | ⟨ys, y, hy⟩
  · rw [hnil] at h; simp at h
  · refine ⟨ys, y, ?_, ?_⟩
    · conv_lhs => rw [← hX, hy]
      simp
    · have hmem : y ∈ X.takeWhile (·.isDigit) := by rw [hy]; simp
      have := List.mem_takeWhile_imp hmem
      simpa using this

theorem digit_cons_run_shape {X : List Char} {c : Char} (hc : c.isDigit = true) :
    ∃ u d, c :: X = u ++ d :: X.dropWhile (·.isDigit) ∧ d.isDigit = true := by
  have hX : X.takeWhile (·.isDigit) ++ X.dropWhile (·.isDigit) = X := by
    exact List.takeWhile_append_dropWhile ..
  rcases List.eq_nil_or_concat (c :: X.takeWhile (·.isDigit)) with hnil | ⟨ys, y, hy⟩
  · cases hnil
  · refine ⟨ys, y, ?_, ?_⟩
    · have hX2 : c :: X = c :: X.takeWhile (·.isDigit) ++ X.dropWhile (·.isDigit) := by
        rw [List.cons_append, hX]
      rw [hX2, hy]
      simp
    · have hmem : y ∈ c :: X.takeWhile (·.isDigit) := by rw [hy]; simp
      rcases List.mem_cons.1 hmem with h1 | h1
      · rw [h1]; exact hc
      · have := List.mem_takeWhile_imp h1
        simpa using this

theorem pSign_decomp (l : List Char) : ∃ sp, l = sp ++ (pSign l).2 := by
  cases l with
  | nil => exact ⟨[], rfl⟩
  | cons c r =>
    by_cases hc : c = '-'
    · subst hc; exact ⟨['-'], rfl⟩
    · refine ⟨[], ?_⟩
      simp only [pSign]
      split
      · rename_i heq
        injection heq with h1 h2
        first
        | exact (hc h1.symm).elim
        | exact (hc h1).elim
      · rfl

theorem pExpSign_decomp (l : List Char) : ∃ sp, l = sp ++ (pExpSign l).2 := by
  cases l with
  | nil => exact ⟨[], rfl⟩
  | cons c r =>
    by_cases hm : c = '-'
    · subst hm; exact ⟨['-'], rfl⟩
    · by_cases hp : c = '+'
      · subst hp; exact ⟨['+'], rfl⟩
      · refine ⟨[], ?_⟩
        simp only [pExpSign]
        split
        · rename_i heq
          injection heq with h1 h2
          first
          | exact (hm h1.symm).elim
          | exact (hm h1).elim
        · rename_i heq
          injection heq with h1 h2
          first
          | exact (hp h1.symm).elim
          | exact (hp h1).elim
        · rfl

theorem pIntDigits_shape {c : Char} (r : List Char) (hc : c.isDigit = true) :
    ∃ u d, c :: r = u ++ d :: (pIntDigits c r).2 ∧ d.isDigit = true := by
  unfold pIntDigits
  by_cases h0 : c = '0'
  · rw [if_pos h0]
    exact ⟨[], c, rfl, hc⟩
  · rw [if_neg h0]
    exact digit_cons_run_shape hc

theorem pFrac_ext {X Y : List Char}
    (h : ∃ u d, X = u ++ d :: Y ∧ d.isDigit = true) :
    ∃ u d, X = u ++ d :: (pFrac Y).2 ∧ d.isDigit = true := by
  obtain ⟨u0, d0, hu0, hd0⟩ := h
  cases Y with
  | nil => exact ⟨u0, d0, hu0, hd0⟩
  | cons y ys =>
    by_cases hy : y = '.'
    · subst hy
      by_cases he : (ys.takeWhile (·.isDigit)).isEmpty
      · simp only [pFrac, if_pos he]
        exact ⟨u0, d0, hu0, hd0⟩
      · simp only [pFrac, if_neg he]
        obtain ⟨u1, d1, hu1, hd1⟩ := @digit_run_shape ys (by simpa using he)
        refine ⟨u0 ++ d0 :: '.' :: u1, d1, ?_, hd1⟩
        calc X = u0 ++ d0 :: '.' :: ys := hu0
          _ = u0 ++ d0 :: '.' :: (u1 ++ d1 :: List.dropWhile (fun x => x.isDigit) ys) := by
              rw [← hu1]
          _ = (u0 ++ d0 :: '.' :: u1) ++ d1 :: List.dropWhile (fun x => x.isDigit) ys := by
              simp
    · have : pFrac (y :: ys) = ([], y :: ys) := by
        unfold pFrac
        split
        · rename_i heq
          injection heq with h1 h2
          first
          | exact (hy h1.symm).elim
          | exact (hy h1).elim
        · rfl
      rw [this]
      exact ⟨u0, d0, hu0, hd0⟩

theorem pExp_ext {X Y : List Char}
    (h : ∃ u d, X = u ++ d :: Y ∧ d.isDigit = true) :
    ∃ u d, X = u ++ d :: (pExp Y).2 ∧ d.isDigit = true := by
  obtain ⟨u0, d0, hu0, hd0⟩ := h
  cases Y with
  | nil => exact ⟨u0, d0, hu0, hd0⟩
  | cons e r3 =>
    by_cases he : e = 'e' ∨ e = 'E'
    · simp only [pExp, if_pos he]
      by_cases hemp : (((pExpSign r3).2).takeWhile (·.isDigit)).isEmpty
      · rw [if_pos hemp]
        exact ⟨u0, d0, hu0, hd0⟩
      · rw [if_neg hemp]
        obtain ⟨sp, hsp⟩ := pExpSign_decomp r3
        obtain ⟨u1, d1, hu1, hd1⟩ := @digit_run_shape ((pExpSign r3).2) (by simpa using hemp)
        refine ⟨u0 ++ d0 :: e :: sp ++ u1, d1, ?_, hd1⟩
        calc X = u0 ++ d0 :: e :: r3 := hu0
          _ = u0 ++ d0 :: e :: (sp ++ (pExpSign r3).2) := by rw [← hsp]
          _ = u0 ++ d0 :: e ::
              (sp ++ (u1 ++ d1 :: List.dropWhile (fun x => x.isDigit) (pExpSign r3).2)) := by
              rw [← hu1]
          _ = (u0 ++ d0 :: e :: sp ++ u1) ++
              d1 :: List.dropWhile (fun x => x.isDigit) (pExpSign r3).2 := by simp
    · simp only [pExp, if_neg he]
      exact ⟨u0, d0, hu0, hd0⟩

/-- A successful number parse consumed a segment ending in a digit. -/
theorem pNum_shape (l : List Char) (v : JValue) (r : List Char)
    (h : pNum l = some (v, r)) : ∃ u d, l = u ++ d :: r ∧ d.isDigit = true := by
  simp only [pNum] at h
  cases hsn : (pSign l).2 with
  | nil => rw [hsn] at h; cases h
  | cons c r0 =>
    simp only [hsn] at h
    by_cases hd : c.isDigit
    · rw [if_pos hd] at h
      have hr : r = (pExp (pFrac (pIntDigits c r0).2).2).2 := by
        split at h <;> (injection h with h1; injection h1 with h1 h2; exact h2.symm)
      obtain ⟨sp, hsp⟩ := pSign_decomp l
      rw [hsn] at hsp
      have step := pExp_ext (pFrac_ext (pIntDigits_shape r0 hd))
      rw [← hr] at step
      rw [hsp]
      exact exists_append_extend2 sp step
    · rw [if_neg hd] at h; cases h

theorem break_through {X Y Z : List Char} {c : Char} (a : List Char)
    (h1 : X = a ++ Y) (h2 : ∃ u, Y = u ++ c :: Z) : ∃ u, X = u ++ c :: Z := by
  obtain ⟨u, hu⟩ := h2
  exact ⟨a ++ u, by rw [h1, hu, List.append_assoc]⟩

theorem skipWsJ_decomp (X : List Char) : X = X.takeWhile isJsonWs ++ skipWsJ X :=
  (List.takeWhile_append_dropWhile ..).symm


theorem pVal_cons (n : ℕ) (c : Char) (r : List Char) :
    pVal (n + 1) (c :: r) =
      (if c = '\x7b' then
        match skipWsJ r with
        | [] => none
        | x :: r2 =>
          if x = '\x7d' then some (.obj [], r2)
          else (pMembers n (x :: r2)).map (fun p => (.obj p.1, p.2))
      else if c = '[' then
        match skipWsJ r with
        | [] => none
        | x :: r2 =>
          if x = ']' then some (.arr [], r2)
          else (pElems n (x :: r2)).map (fun p => (.arr p.1, p.2))
      else if c = '"' then
        (pStr (r.length + 1) r).map (fun p => (.str ⟨p.1⟩, p.2))
      else if c = 't' then
        match r with
        | 'r' :: 'u' :: 'e' :: r2 => some (.bool true, r2)
        | _ => pNum (c :: r)
      else if c = 'f' then
        match r with
        | 'a' :: 'l' :: 's' :: 'e' :: r2 => some (.bool false, r2)
        | _ => pNum (c :: r)
      else if c = 'n' then
        match r with
        | 'u' :: 'l' :: 'l' :: r2 => some (.null, r2)
        | _ => pNum (c :: r)
      else pNum (c :: r)) := rfl

theorem pMembers_cons (n : ℕ) (c : Char) (r0 : List Char) :
    pMembers (n + 1) (c :: r0) =
      (if c = '"' then
        match pStr (r0.length + 1) r0 with
        | none => none
        | some (k, r2) =>
          match skipWsJ r2 with
          | [] => none
          | x :: r3 =>
            if x = ':' then
              match pVal n (skipWsJ r3) with
              | none => none
              | some (v, r4) =>
                match skipWsJ r4 with
                | [] => none
                | y :: r5 =>
                  if y = ',' then
                    (pMembers n (skipWsJ r5)).map (fun p => ((⟨k⟩, v) :: p.1, p.2))
                  else if y = '\x7d' then some ([(⟨k⟩, v)], r5)
                  else none
            else none
      else none) := rfl

theorem pElems_succ (n : ℕ) (l : List Char) :
    pElems (n + 1) l =
      (match pVal n l with
      | none => none
      | some (v, r0) =>
        match skipWsJ r0 with
        | [] => none
        | y :: r2 =>
          if y = ',' then (pElems n (skipWsJ r2)).map (fun p => (v :: p.1, p.2))
          else if y = ']' then some ([v], r2)
          else none) := rfl

theorem shape_cons_through (c0 : Char) (r0 : List Char) {Z : List Char} {c : Char}
    (h : ∃ u, skipWsJ r0 = u ++ c :: Z) : ∃ u, c0 :: r0 = u ++ c :: Z := by
  obtain ⟨u, hu⟩ := h
  refine ⟨c0 :: r0.takeWhile isJsonWs ++ u, ?_⟩
  conv_lhs => rw [skipWsJ_decomp r0]
  rw [hu]
  simp

theorem option_map_pair_eq {α β γ : Type} {o : Option (α × β)} {f : α → γ}
    {y : γ} {r : β} (h : o.map (fun p => (f p.1, p.2)) = some (y, r)) :
    ∃ a, o = some (a, r) := by
  simp only [Option.map_eq_some'] at h
  obtain ⟨⟨a, b⟩, hp, hq⟩ := h
  injection hq with h1 h2
  subst h2
  exact ⟨a, hp⟩

/-- Shape of successful parses: a value parse consumes a segment ending
in `}`, `]`, `"`, `e`, `l` or a digit; member and element parses end at
their closing brace or bracket. -/
theorem pVal_shape_all : ∀ fuel : ℕ,
    (∀ l v r, pVal fuel l = some (v, r) → ∃ u c, l = u ++ c :: r ∧ goodEnd c) ∧
    (∀ l kvs r, pMembers fuel l = some (kvs, r) → ∃ u, l = u ++ '\x7d' :: r) ∧
    (∀ l xs r, pElems fuel l = some (xs, r) → ∃ u, l = u ++ ']' :: r) := by
  intro fuel
  induction fuel with
  | zero =>
    refine ⟨?_, ?_, ?_⟩
    · intro l v r h; simp [pVal] at h
    · intro l kvs r h; simp [pMembers] at h
    · intro l xs r h; simp [pElems] at h
  | succ n ih =>
    obtain ⟨ihV, ihM, ihE⟩ := ih
    refine ⟨?_, ?_, ?_⟩
    · -- pVal
      intro l v r h
      cases l with
      | nil => simp [pVal] at h
      | cons c r0 =>
        rw [pVal_cons] at h
        by_cases hb : c = '\x7b'
        · rw [if_pos hb] at h
          subst hb
          cases hw : skipWsJ r0 with
          | nil => simp only [hw] at h; cases h
          | cons x r2 =>
            simp only [hw] at h
            by_cases hx : x = '\x7d'
            · rw [if_pos hx] at h
              subst hx
              injection h with h1
              injection h1 with h1 h2
              subst h2
              obtain ⟨u, hu⟩ := shape_cons_through '\x7b' r0 ⟨[], hw⟩
              exact ⟨u, '\x7d', hu, Or.inl rfl⟩
            · rw [if_neg hx] at h
              obtain ⟨kvs, hp⟩ := option_map_pair_eq h
              obtain ⟨u2, hu2⟩ := ihM _ _ _ hp
              obtain ⟨u, hu⟩ := shape_cons_through '\x7b' r0 ⟨u2, by rw [hw]; exact hu2⟩
              exact ⟨u, '\x7d', hu, Or.inl rfl⟩
        · rw [if_neg hb] at h
          by_cases ha : c = '['
          · rw [if_pos ha] at h
            subst ha
            cases hw : skipWsJ r0 with
            | nil => simp only [hw] at h; cases h
            | cons x r2 =>
              simp only [hw] at h
              by_cases hx : x = ']'
              · rw [if_pos hx] at h
                subst hx
                injection h with h1
                injection h1 with h1 h2
                subst h2
                obtain ⟨u, hu⟩ := shape_cons_through '[' r0 ⟨[], hw⟩
                exact ⟨u, ']', hu, Or.inr (Or.inl rfl)⟩
              · rw [if_neg hx] at h
                obtain ⟨xs, hp⟩ := option_map_pair_eq h
                obtain ⟨u2, hu2⟩ := ihE _ _ _ hp
                obtain ⟨u, hu⟩ := shape_cons_through '[' r0 ⟨u2, by rw [hw]; exact hu2⟩
                exact ⟨u, ']', hu, Or.inr (Or.inl rfl)⟩
          · rw [if_neg ha] at h
            by_cases hs : c = '"'
            · rw [if_pos hs] at h
              subst hs
              simp only [Option.map_eq_some'] at h
              obtain ⟨⟨cs, r2⟩, hp, hq2⟩ := h
              injection hq2 with hq21 hq22
              subst hq22
              obtain ⟨u, hu⟩ := pStr_shape _ _ _ _ hp
              exact ⟨'"' :: u, '"', by rw [hu]; rfl, Or.inr (Or.inr (Or.inl rfl))⟩
            · rw [if_neg hs] at h
              by_cases ht : c = 't'
              · rw [if_pos ht] at h
                subst ht
                split at h
                · rename_i r2
                  injection h with h1
                  injection h1 with h1 h2
                  subst h2
                  exact ⟨['t', 'r', 'u'], 'e', rfl, Or.inr (Or.inr (Or.inr (Or.inl rfl)))⟩
                · obtain ⟨u, d, hu, hd⟩ := pNum_shape _ _ _ h
                  exact ⟨u, d, hu, Or.inr (Or.inr (Or.inr (Or.inr (Or.inr hd))))⟩
              · rw [if_neg ht] at h
                by_cases hf : c = 'f'
                · rw [if_pos hf] at h
                  subst hf
                  split at h
                  · rename_i r2
                    injection h with h1
                    injection h1 with h1 h2
                    subst h2
                    exact ⟨['f', 'a', 'l', 's'], 'e', rfl,
                      Or.inr (Or.inr (Or.inr (Or.inl rfl)))⟩
                  · obtain ⟨u, d, hu, hd⟩ := pNum_shape _ _ _ h
                    exact ⟨u, d, hu, Or.inr (Or.inr (Or.inr (Or.inr (Or.inr hd))))⟩
                · rw [if_neg hf] at h
                  by_cases hn : c = 'n'
                  · rw [if_pos hn] at h
                    subst hn
                    split at h
                    · rename_i r2
                      injection h with h1
                      injection h1 with h1 h2
                      subst h2
                      exact ⟨['n', 'u', 'l'], 'l', rfl,
                        Or.inr (Or.inr (Or.inr (Or.inr (Or.inl rfl))))⟩
                    · obtain ⟨u, d, hu, hd⟩ := pNum_shape _ _ _ h
                      exact ⟨u, d, hu, Or.inr (Or.inr (Or.inr (Or.inr (Or.inr hd))))⟩
                  · rw [if_neg hn] at h
                    obtain ⟨u, d, hu, hd⟩ := pNum_shape _ _ _ h
                    exact ⟨u, d, hu, Or.inr (Or.inr (Or.inr (Or.inr (Or.inr hd))))⟩
    · -- pMembers
      intro l kvs r h
      cases l with
      | nil => simp [pMembers] at h
      | cons c r0 =>
        rw [pMembers_cons] at h
        by_cases hq : c = '"'
        · rw [if_pos hq] at h
          subst hq
          cases hps : pStr (r0.length + 1) r0 with
          | none => simp only [hps] at h; cases h
          | some p =>
            obtain ⟨k, r2⟩ := p
            simp only [hps] at h
            cases hw : skipWsJ r2 with
            | nil => simp only [hw] at h; cases h
            | cons x r3 =>
              simp only [hw] at h
              by_cases hx : x = ':'
              · rw [if_pos hx] at h
                subst hx
                cases hpv : pVal n (skipWsJ r3) with
                | none => simp only [hpv] at h; cases h
                | some q =>
                  obtain ⟨v, r4⟩ := q
                  simp only [hpv] at h
                  cases hw2 : skipWsJ r4 with
                  | nil => simp only [hw2] at h; cases h
                  | cons y r5 =>
                    simp only [hw2] at h
                    obtain ⟨u1, hu1⟩ := pStr_shape _ _ _ _ hps
                    obtain ⟨u2, c2, hu2, hc2⟩ := ihV _ _ _ hpv
                    by_cases hy : y = ','
                    · rw [if_pos hy] at h
                      subst hy
                      obtain ⟨kvs2, hp⟩ := option_map_pair_eq h
                      obtain ⟨u3, hu3⟩ := ihM _ _ _ hp
                      have s2 : ∃ u, r5 = u ++ '\x7d' :: r :=
                        break_through (r5.takeWhile isJsonWs) (skipWsJ_decomp r5) ⟨u3, hu3⟩
                      have s3 : ∃ u, r4 = u ++ '\x7d' :: r :=
                        break_through (r4.takeWhile isJsonWs ++ [','])
                          (by conv_lhs => rw [skipWsJ_decomp r4, hw2]
                              simp) s2
                      have s4 : ∃ u, skipWsJ r3 = u ++ '\x7d' :: r :=
                        break_through (u2 ++ [c2]) (by rw [hu2]; simp) s3
                      have s5 : ∃ u, r3 = u ++ '\x7d' :: r :=
                        break_through (r3.takeWhile isJsonWs) (skipWsJ_decomp r3) s4
                      have s6 : ∃ u, r2 = u ++ '\x7d' :: r :=
                        break_through (r2.takeWhile isJsonWs ++ [':'])
                          (by conv_lhs => rw [skipWsJ_decomp r2, hw]
                              simp) s5
                      have s7 : ∃ u, r0 = u ++ '\x7d' :: r :=
                        break_through (u1 ++ ['"']) (by rw [hu1]; simp) s6
                      exact break_through ['"'] rfl s7
                    · rw [if_neg hy] at h
                      by_cases hy2 : y = '\x7d'
                      · rw [if_pos hy2] at h
                        subst hy2
                        injection h with h1
                        injection h1 with h1 h2
                        subst h2
                        have s3 : ∃ u, r4 = u ++ '\x7d' :: r5 :=
                          break_through (r4.takeWhile isJsonWs) (skipWsJ_decomp r4)
                            ⟨[], hw2⟩
                        have s4 : ∃ u, skipWsJ r3 = u ++ '\x7d' :: r5 :=
                          break_through (u2 ++ [c2]) (by rw [hu2]; simp) s3
                        have s5 : ∃ u, r3 = u ++ '\x7d' :: r5 :=
                          break_through (r3.takeWhile isJsonWs) (skipWsJ_decomp r3) s4
                        have s6 : ∃ u, r2 = u ++ '\x7d' :: r5 :=
                          break_through (r2.takeWhile isJsonWs ++ [':'])
                            (by conv_lhs => rw [skipWsJ_decomp r2, hw]
                                simp) s5
                        have s7 : ∃ u, r0 = u ++ '\x7d' :: r5 :=
                          break_through (u1 ++ ['"']) (by rw [hu1]; simp) s6
                        exact break_through ['"'] rfl s7
                      · rw [if_neg hy2] at h
                        cases h
              · rw [if_neg hx] at h
                cases h
        · rw [if_neg hq] at h
          cases h
    · -- pElems
      intro l xs r h
      rw [pElems_succ] at h
      cases hpv : pVal n l with
      | none => simp only [hpv] at h; cases h
      | some q =>
        obtain ⟨v, r0⟩ := q
        simp only [hpv] at h
        cases hw : skipWsJ r0 with
        | nil => simp only [hw] at h; cases h
        | cons y r2 =>
          simp only [hw] at h
          obtain ⟨u0, c0, hu0, hc0⟩ := ihV _ _ _ hpv
          by_cases hy : y = ','
          · rw [if_pos hy] at h
            subst hy
            obtain ⟨xs2, hp⟩ := option_map_pair_eq h
            obtain ⟨u, hu⟩ := ihE _ _ _ hp
            have s2 : ∃ u2, r2 = u2 ++ ']' :: r :=
              break_through (r2.takeWhile isJsonWs) (skipWsJ_decomp r2) ⟨u, hu⟩
            have s3 : ∃ u2, r0 = u2 ++ ']' :: r :=
              break_through (r0.takeWhile isJsonWs ++ [','])
                (by conv_lhs => rw [skipWsJ_decomp r0, hw]
                    simp) s2
            exact break_through (u0 ++ [c0]) (by rw [hu0]; simp) s3
          · rw [if_neg hy] at h
            by_cases hy2 : y = ']'
            · rw [if_pos hy2] at h
              subst hy2
              injection h with h1
              injection h1 with h1 h2
              subst h2
              have s3 : ∃ u2, r0 = u2 ++ ']' :: r2 :=
                break_through (r0.takeWhile isJsonWs) (skipWsJ_decomp r0) ⟨[], hw⟩
              exact break_through (u0 ++ [c0]) (by rw [hu0]; simp) s3
            · rw [if_neg hy2] at h
              cases h

theorem dropWhile_length_le (p : Char → Bool) :
    ∀ l : List Char, (l.dropWhile p).length ≤ l.length := by
  intro l
  induction l with
  | nil => simp
  | cons c l' ih =>
    rw [List.dropWhile_cons]
    split
    · exact Nat.le_succ_of_le ih
    · simp

theorem dropWhile_append_all {p : Char → Bool} {a1 : List Char} (b : List Char)
    (h : ∀ a ∈ a1, p a = true) :
    List.dropWhile p (a1 ++ b) = List.dropWhile p b := by
  induction a1 with
  | nil => simp
  | cons c a2 ih =>
    rw [List.cons_append, List.dropWhile_cons, if_pos (h c (by simp))]
    exact ih (fun a ha => h a (by simp [ha]))

theorem dropWhile_append_cons_neg {p : Char → Bool} {c : Char} (u z : List Char)
    (hc : p c = false) :
    List.dropWhile p (u ++ c :: z) = List.dropWhile p u ++ c :: z := by
  induction u with
  | nil => simp [List.dropWhile_cons, hc]
  | cons b u' ih =>
    rw [List.cons_append, List.dropWhile_cons, List.dropWhile_cons]
    split
    · exact ih
    · simp

theorem isPrefixOf_self_append (l z : List Char) : l.isPrefixOf (l ++ z) = true := by
  induction l with
  | nil => simp [List.isPrefixOf]
  | cons c l' ih => simp [List.isPrefixOf, ih]

theorem isPrefixOf_head {p0 c : Char} {pat l : List Char}
    (h : (p0 :: pat).isPrefixOf (c :: l) = true) : c = p0 := by
  simp only [List.isPrefixOf, Bool.and_eq_true, beq_iff_eq] at h
  exact h.1.symm

theorem isPrefixOf_append_cons_indep {c : Char} {pat : List Char} (hc : c ∉ pat) :
    ∀ (x z z' : List Char),
      pat.isPrefixOf (x ++ c :: z) = pat.isPrefixOf (x ++ c :: z') := by
  induction pat with
  | nil => intro x z z'; simp [List.isPrefixOf]
  | cons p0 pat' ih =>
    intro x z z'
    cases x with
    | nil =>
      have hne : (p0 == c) = false := by
        simp only [beq_eq_false_iff_ne]
        intro hp
        exact hc (hp ▸ List.mem_cons_self p0 pat')
      simp [List.isPrefixOf, hne]
    | cons b x' =>
      simp only [List.cons_append, List.isPrefixOf, List.append_eq]
      rw [ih (fun hm => hc (List.mem_cons_of_mem p0 hm)) x' z z']

theorem isPrefixOf_length {c : Char} {pat : List Char} (hc : c ∉ pat) :
    ∀ (x z : List Char), pat.isPrefixOf (x ++ c :: z) = true → pat.length ≤ x.length := by
  induction pat with
  | nil => intro x z _; simp
  | cons p0 pat' ih =>
    intro x z h
    cases x with
    | nil =>
      exfalso
      have : c = p0 := isPrefixOf_head h
      exact hc (this ▸ List.mem_cons_self p0 pat')
    | cons b x' =>
      simp only [List.cons_append, List.isPrefixOf, Bool.and_eq_true] at h
      have := ih (fun hm => hc (List.mem_cons_of_mem p0 hm)) x' z h.2
      simpa using Nat.succ_le_succ this

theorem pyRStrip_append_nonws {c : Char} {w : List Char} (u : List Char)
    (hc : isWs c = false) (hw : ∀ a ∈ w, isWs a = true) :
    pyRStrip (u ++ c :: w) = u ++ [c] := by
  unfold pyRStrip
  have h1 : (u ++ c :: w).reverse = w.reverse ++ c :: u.reverse := by
    simp
  rw [h1, dropWhile_append_all (c :: u.reverse) (fun a ha => hw a (by simpa using ha)),
    List.dropWhile_cons, if_neg (by simp [hc])]
  simp

theorem ticks_suffix_true (U : List Char) :
    ['\x60', '\x60', '\x60'].isSuffixOf (U ++ ['\x60', '\x60', '\x60']) = true := by
  unfold List.isSuffixOf
  have h1 : (U ++ ['\x60', '\x60', '\x60']).reverse =
      ['\x60', '\x60', '\x60'] ++ U.reverse := by
    simp
  rw [h1]
  exact isPrefixOf_self_append _ _

theorem ticks_suffix_false {c : Char} (u : List Char) (hc : ¬c = '\x60') :
    ['\x60', '\x60', '\x60'].isSuffixOf (u ++ [c]) = false := by
  unfold List.isSuffixOf
  have h1 : (u ++ [c]).reverse = c :: u.reverse := by simp
  rw [h1]
  simp only [List.isPrefixOf, Bool.and_eq_true, beq_iff_eq]
  have : ('\x60' == c) = false := by
    simp only [beq_eq_false_iff_ne]
    exact fun hh => hc hh.symm
  simp [this]

theorem subJFAux_fuel : ∀ (f1 f2 : ℕ) (l : List Char),
    l.length ≤ f1 → l.length ≤ f2 → subJFAux f1 l = subJFAux f2 l := by
  intro f1
  induction f1 with
  | zero =>
    intro f2 l h1 h2
    have : l = [] := List.eq_nil_of_length_eq_zero (Nat.le_zero.1 h1)
    subst this
    cases f2 <;> rfl
  | succ n ih =>
    intro f2 l h1 h2
    cases l with
    | nil => cases f2 <;> rfl
    | cons c l' =>
      cases f2 with
      | zero => simp at h2
      | succ m =>
        have ha := dropWhile_length_le isWs (List.drop 7 (c :: l'))
        have hb : (List.drop 7 (c :: l')).length = (c :: l').length - 7 :=
          List.length_drop ..
        simp only [List.length_cons] at hb h1 h2
        simp only [subJFAux]
        split
        · apply ih
          · omega
          · omega
        · rw [ih m l' (by omega) (by omega)]

theorem subJF_eq_aux (f : ℕ) (l : List Char) (h : l.length ≤ f) :
    subJsonFence l = subJFAux f l :=
  subJFAux_fuel l.length f l (Nat.le_refl _) h

theorem subJF_nil : subJsonFence [] = [] := rfl

theorem subJF_cons_nomatch {c : Char} {l : List Char}
    (h : jfPat.isPrefixOf (c :: l) = false) :
    subJsonFence (c :: l) = c :: subJsonFence l := by
  unfold subJsonFence
  simp only [List.length_cons, subJFAux, h]
  simp

theorem subJF_cons_match {c : Char} {l : List Char}
    (h : jfPat.isPrefixOf (c :: l) = true) :
    subJsonFence (c :: l) = subJsonFence (((c :: l).drop 7).dropWhile isWs) := by
  conv_lhs => unfold subJsonFence
  simp only [List.length_cons, subJFAux, h, if_pos]
  apply (subJF_eq_aux _ _ _).symm
  have ha := dropWhile_length_le isWs (List.drop 7 (c :: l))
  have hb : (List.drop 7 (c :: l)).length = (c :: l).length - 7 :=
    List.length_drop ..
  simp only [List.length_cons] at hb
  omega

theorem isWs_ne_tick {a : Char} (h : isWs a = true) : a ≠ '\x60' := by
  intro hh
  subst hh
  exact absurd h (by decide)

theorem jfPat_head {c : Char} {l : List Char}
    (h : c ≠ '\x60') : jfPat.isPrefixOf (c :: l) = false := by
  unfold jfPat
  simp only [List.isPrefixOf, Bool.and_eq_true, beq_iff_eq]
  have : ('\x60' == c) = false := by
    simp only [beq_eq_false_iff_ne]
    exact fun hh => h hh.symm
  simp [this]

theorem subJF_noTicks : ∀ {l : List Char}, ('\x60' ∉ l) → subJsonFence l = l := by
  intro l
  induction l with
  | nil => intro _; rfl
  | cons c l' ih =>
    intro h
    have hc : c ≠ '\x60' := fun hh => h (hh ▸ List.mem_cons_self c l')
    rw [subJF_cons_nomatch (jfPat_head hc), ih (fun hm => h (List.mem_cons_of_mem c hm))]

theorem subJF_wsPass : ∀ {w : List Char}, (∀ a ∈ w, isWs a = true) →
    ∀ (l : List Char), subJsonFence (w ++ l) = w ++ subJsonFence l := by
  intro w
  induction w with
  | nil => intro _ l; simp
  | cons a w' ih =>
    intro h l
    have ha : a ≠ '\x60' := isWs_ne_tick (h a (by simp))
    rw [List.cons_append, subJF_cons_nomatch (jfPat_head ha),
      ih (fun b hb => h b (by simp [hb])) l]
    rfl

theorem tick_mem_jfPat : '\x60' ∈ jfPat := by decide

theorem subJF_ws_only {w : List Char} (hw : ∀ a ∈ w, isWs a = true) :
    subJsonFence w = w :=
  subJF_noTicks (fun hm => (isWs_ne_tick (hw _ hm)) rfl)

/-- Base case of the junction lemma: a blocked character followed by
whitespace and the trailing fence. -/
theorem subJF_K0 {c : Char} {w : List Char}
    (hcp : c ∉ jfPat) (hw : ∀ a ∈ w, isWs a = true) :
    subJsonFence (c :: (w ++ ['\n', '\x60', '\x60', '\x60'])) =
      subJsonFence (c :: w) ++ ['\n', '\x60', '\x60', '\x60'] := by
  have hc_tick : c ≠ '\x60' := fun hh => hcp (hh ▸ tick_mem_jfPat)
  have hnl : subJsonFence ['\n', '\x60', '\x60', '\x60'] = ['\n', '\x60', '\x60', '\x60'] := by
    rfl
  rw [subJF_cons_nomatch (jfPat_head hc_tick), subJF_wsPass hw, hnl,
    subJF_cons_nomatch (jfPat_head hc_tick), subJF_ws_only hw]
  simp

/-- Junction lemma: appending the trailing fence after a blocked
character and whitespace commutes with fence removal. -/
theorem subJF_K : ∀ (N : ℕ) (x : List Char) (c : Char) (w : List Char),
    x.length ≤ N → isWs c = false → c ∉ jfPat → (∀ a ∈ w, isWs a = true) →
    subJsonFence (x ++ c :: (w ++ ['\n', '\x60', '\x60', '\x60'])) =
      subJsonFence (x ++ c :: w) ++ ['\n', '\x60', '\x60', '\x60'] := by
  intro N
  induction N with
  | zero =>
    intro x c w hx hcw hcp hw
    have hxe : x = [] := List.eq_nil_of_length_eq_zero (Nat.le_zero.1 hx)
    subst hxe
    simpa using subJF_K0 hcp hw
  | succ N ih =>
    intro x c w hx hcw hcp hw
    cases x with
    | nil => simpa using subJF_K0 hcp hw
    | cons b x' =>
      cases hmatch : jfPat.isPrefixOf (b :: (x' ++ c :: (w ++ ['\n', '\x60', '\x60', '\x60']))) with
      | false =>
        have hmatch2 : jfPat.isPrefixOf (b :: (x' ++ c :: w)) = false := by
          have := isPrefixOf_append_cons_indep hcp (b :: x')
            (w ++ ['\n', '\x60', '\x60', '\x60']) w
          simp only [List.cons_append] at this
          rw [← this]
          exact hmatch
        rw [List.cons_append, subJF_cons_nomatch hmatch,
          List.cons_append, subJF_cons_nomatch hmatch2]
        rw [ih x' c w (by simpa using Nat.le_of_succ_le_succ hx) hcw hcp hw]
        rfl
      | true =>
        have hmatch2 : jfPat.isPrefixOf (b :: (x' ++ c :: w)) = true := by
          have := isPrefixOf_append_cons_indep hcp (b :: x')
            (w ++ ['\n', '\x60', '\x60', '\x60']) w
          simp only [List.cons_append] at this
          rw [← this]
          exact hmatch
        have hlen : jfPat.length ≤ (b :: x').length := by
          apply isPrefixOf_length hcp (b :: x') (w ++ ['\n', '\x60', '\x60', '\x60'])
          simpa using hmatch
        rw [List.cons_append, subJF_cons_match hmatch,
          List.cons_append, subJF_cons_match hmatch2]
        have hdrop1 : List.drop 7 (b :: (x' ++ c :: (w ++ ['\n', '\x60', '\x60', '\x60']))) =
            List.drop 7 (b :: x') ++ c :: (w ++ ['\n', '\x60', '\x60', '\x60']) := by
          rw [show b :: (x' ++ c :: (w ++ ['\n', '\x60', '\x60', '\x60'])) =
            (b :: x') ++ c :: (w ++ ['\n', '\x60', '\x60', '\x60']) from rfl]
          exact List.drop_append_of_le_length (by simpa [jfPat] using hlen)
        have hdrop2 : List.drop 7 (b :: (x' ++ c :: w)) =
            List.drop 7 (b :: x') ++ c :: w := by
          rw [show b :: (x' ++ c :: w) = (b :: x') ++ c :: w from rfl]
          exact List.drop_append_of_le_length (by simpa [jfPat] using hlen)
        rw [hdrop1, hdrop2, dropWhile_append_cons_neg _ _ hcw, dropWhile_append_cons_neg _ _ hcw]
        have hxlen : (List.dropWhile isWs (List.drop 7 (b :: x'))).length ≤ N := by
          have h1 := dropWhile_length_le isWs (List.drop 7 (b :: x'))
          have h2 : (List.drop 7 (b :: x')).length = (b :: x').length - 7 :=
            List.length_drop ..
          simp only [List.length_cons] at h2 hx
          simp only [jfPat, List.length_cons] at hlen
          omega
        exact ih _ c w hxlen hcw hcp hw

/-- Confinement lemma: fence removal in front of a blocked character
leaves the tail untouched. -/
theorem subJF_M : ∀ (N : ℕ) (x : List Char) (c : Char) (w : List Char),
    x.length ≤ N → isWs c = false → c ∉ jfPat → (∀ a ∈ w, isWs a = true) →
    ∃ y, subJsonFence (x ++ c :: w) = y ++ c :: w := by
  intro N
  induction N with
  | zero =>
    intro x c w hx hcw hcp hw
    have hxe : x = [] := List.eq_nil_of_length_eq_zero (Nat.le_zero.1 hx)
    subst hxe
    have hc_tick : c ≠ '\x60' := fun hh => hcp (hh ▸ tick_mem_jfPat)
    refine ⟨[], ?_⟩
    simp only [List.nil_append]
    rw [subJF_cons_nomatch (jfPat_head hc_tick), subJF_ws_only hw]
  | succ N ih =>
    intro x c w hx hcw hcp hw
    cases x with
    | nil =>
      have hc_tick : c ≠ '\x60' := fun hh => hcp (hh ▸ tick_mem_jfPat)
      refine ⟨[], ?_⟩
      simp only [List.nil_append]
      rw [subJF_cons_nomatch (jfPat_head hc_tick), subJF_ws_only hw]
    | cons b x' =>
      cases hmatch : jfPat.isPrefixOf (b :: (x' ++ c :: w)) with
      | false =>
        rw [List.cons_append, subJF_cons_nomatch hmatch]
        obtain ⟨y, hy⟩ := ih x' c w (by simpa using Nat.le_of_succ_le_succ hx) hcw hcp hw
        exact ⟨b :: y, by rw [hy]; rfl⟩
      | true =>
        have hlen : jfPat.length ≤ (b :: x').length := by
          apply isPrefixOf_length hcp (b :: x') w
          simpa using hmatch
        rw [List.cons_append, subJF_cons_match hmatch]
        have hdrop2 : List.drop 7 (b :: (x' ++ c :: w)) =
            List.drop 7 (b :: x') ++ c :: w := by
          rw [show b :: (x' ++ c :: w) = (b :: x') ++ c :: w from rfl]
          exact List.drop_append_of_le_length (by simpa [jfPat] using hlen)
        rw [hdrop2, dropWhile_append_cons_neg _ _ hcw]
        apply ih _ c w ?_ hcw hcp hw
        have h1 := dropWhile_length_le isWs (List.drop 7 (b :: x'))
        have h2 : (List.drop 7 (b :: x')).length = (b :: x').length - 7 :=
          List.length_drop ..
        simp only [List.length_cons] at h2 hx
        simp only [jfPat, List.length_cons] at hlen
        omega

theorem dropWhile_nil_all {p : Char → Bool} : ∀ {r : List Char},
    r.dropWhile p = [] → ∀ a ∈ r, p a = true := by
  intro r
  induction r with
  | nil => intro _ a ha; cases ha
  | cons c r' ih =>
    intro h a ha
    rw [List.dropWhile_cons] at h
    split at h
    · rename_i hc
      rcases List.mem_cons.1 ha with h1 | h1
      · subst h1; exact hc
      · exact ih h a h1
    · cases h

/-- A text accepted by `jsonParse` is a consumed segment ending in a
`goodEnd` character, followed only by JSON whitespace. -/
theorem jsonParse_shape {l : List Char} {v : JValue} (h : jsonParse l = some v) :
    ∃ u c w, l = u ++ c :: w ∧ goodEnd c ∧ ∀ a ∈ w, isJsonWs a = true := by
  unfold jsonParse at h
  cases hp : pVal (2 * l.length + 2) (skipWsJ l) with
  | none => rw [hp] at h; cases h
  | some q =>
    obtain ⟨v2, r⟩ := q
    simp only [hp] at h
    cases he : (skipWsJ r).isEmpty with
    | false =>
      simp only [he, Bool.false_eq_true, if_false] at h
      cases h
    | true =>
      obtain ⟨u, c, hu, hc⟩ := (pVal_shape_all _).1 _ _ _ hp
      have hr : ∀ a ∈ r, isJsonWs a = true :=
        dropWhile_nil_all (by simpa [skipWsJ, List.isEmpty_iff] using he)
      refine ⟨l.takeWhile isJsonWs ++ u, c, r, ?_, hc, hr⟩
      conv_lhs => rw [skipWsJ_decomp l]
      rw [hu]
      simp

theorem goodEnd_not_ws {c : Char} (h : goodEnd c) : isWs c = false := by
  cases hb : isWs c with
  | false => rfl
  | true =>
    exfalso
    simp only [isWs, Bool.or_eq_true, decide_eq_true_eq] at hb
    rcases hb with ((((hc | hc) | hc) | hc) | hc) | hc <;> (subst hc; revert h; decide)

theorem goodEnd_not_pat {c : Char} (h : goodEnd c) : c ∉ jfPat := by
  intro hm
  simp only [jfPat, List.mem_cons, List.not_mem_nil, or_false] at hm
  rcases hm with hc | hc | hc | hc | hc | hc | hc <;> (subst hc; revert h; decide)

/-- Removing the leading fence: `subJsonFence` consumes the initial
```` ```json ```` and the following whitespace. -/
theorem subJF_initial (z : List Char) :
    subJsonFence ('\x60' :: '\x60' :: '\x60' :: 'j' :: 's' :: 'o' :: 'n' :: '\n' :: z) =
      subJsonFence (z.dropWhile isWs) := by
  have hpre : jfPat.isPrefixOf
      ('\x60' :: ('\x60' :: '\x60' :: 'j' :: 's' :: 'o' :: 'n' :: '\n' :: z)) = true := by
    simp [jfPat, List.isPrefixOf]
  rw [subJF_cons_match hpre]
  congr 1

/-- Core of C8: cleaning commutes with wrapping in a markdown fence for
any text whose shape is that of a successful JSON parse. -/
theorem clean_fence_eq {t : List Char}
    (hshape : ∃ u c w, t = u ++ c :: w ∧ goodEnd c ∧ ∀ a ∈ w, isJsonWs a = true) :
    cleanResponseText ("```json\n".data ++ (t ++ "\n```".data)) = cleanResponseText t := by
  obtain ⟨m, c, w, ht, hc, hwj⟩ := hshape
  subst ht
  have hcw : isWs c = false := goodEnd_not_ws hc
  have hcp : c ∉ jfPat := goodEnd_not_pat hc
  have hcw2 : ∀ a ∈ w, isWs a = true := fun a ha => isWs_of_isJsonWs (hwj a ha)
  have htick : isWs '\x60' = false := by decide
  have hctick : c ≠ '\x60' := fun hh => hcp (hh ▸ tick_mem_jfPat)
  -- names for the two decompositions of m
  have hm : m = m.takeWhile isWs ++ m.dropWhile isWs :=
    (List.takeWhile_append_dropWhile ..).symm
  have htw : ∀ a ∈ m.takeWhile isWs, isWs a = true := fun a ha =>
    List.mem_takeWhile_imp ha
  obtain ⟨y, hy⟩ := subJF_M (m.dropWhile isWs).length (m.dropWhile isWs) c w
    (Nat.le_refl _) hcw hcp hcw2
  -- t side ------------------------------------------------------------
  have hsub_t : subJsonFence (m ++ c :: w) =
      m.takeWhile isWs ++ (y ++ c :: w) := by
    conv_lhs => rw [hm]
    rw [List.append_assoc, subJF_wsPass htw, hy]
  have hrs : pyRStrip (m.takeWhile isWs ++ (y ++ c :: w)) =
      (m.takeWhile isWs ++ y) ++ [c] := by
    rw [show m.takeWhile isWs ++ (y ++ c :: w) =
      (m.takeWhile isWs ++ y) ++ c :: w by simp]
    exact pyRStrip_append_nonws _ hcw hcw2
  have hrtf : removeTrailingFence (m.takeWhile isWs ++ (y ++ c :: w)) =
      m.takeWhile isWs ++ (y ++ c :: w) := by
    unfold removeTrailingFence
    rw [hrs, ticks_suffix_false (m.takeWhile isWs ++ y) hctick]
    simp
  have hclean_t : cleanResponseText (m ++ c :: w) =
      List.dropWhile isWs y ++ [c] := by
    unfold cleanResponseText
    rw [hsub_t, hrtf]
    unfold pyStrip
    rw [dropWhile_append_all _ htw, dropWhile_append_cons_neg _ _ hcw]
    exact pyRStrip_append_nonws _ hcw hcw2
  -- fence side --------------------------------------------------------
  have hfence1 : subJsonFence ("```json\n".data ++ ((m ++ c :: w) ++ "\n```".data)) =
      subJsonFence ((m ++ c :: w ++ ['\n', '\x60', '\x60', '\x60']).dropWhile isWs) := by
    have hkey : "```json\n".data ++ ((m ++ c :: w) ++ "\n```".data) =
        '\x60' :: '\x60' :: '\x60' :: 'j' :: 's' :: 'o' :: 'n' :: '\n' ::
          (m ++ c :: w ++ ['\n', '\x60', '\x60', '\x60']) := by
      simp
    rw [hkey, subJF_initial]
  have hfence2 : (m ++ c :: w ++ ['\n', '\x60', '\x60', '\x60']).dropWhile isWs =
      m.dropWhile isWs ++ c :: (w ++ ['\n', '\x60', '\x60', '\x60']) := by
    rw [show m ++ c :: w ++ ['\n', '\x60', '\x60', '\x60'] =
      m ++ c :: (w ++ ['\n', '\x60', '\x60', '\x60']) by simp]
    exact dropWhile_append_cons_neg _ _ hcw
  have hfence3 : subJsonFence (m.dropWhile isWs ++ c :: (w ++ ['\n', '\x60', '\x60', '\x60'])) =
      (y ++ c :: w) ++ ['\n', '\x60', '\x60', '\x60'] := by
    rw [subJF_K (m.dropWhile isWs).length (m.dropWhile isWs) c w
      (Nat.le_refl _) hcw hcp hcw2, hy]
  have hrs2 : pyRStrip ((y ++ c :: w) ++ ['\n', '\x60', '\x60', '\x60']) =
      (y ++ c :: w ++ ['\n', '\x60', '\x60']) ++ ['\x60'] := by
    rw [show (y ++ c :: w) ++ ['\n', '\x60', '\x60', '\x60'] =
      (y ++ c :: w ++ ['\n', '\x60', '\x60']) ++ '\x60' :: [] by simp]
    exact pyRStrip_append_nonws _ htick (by intro a ha; cases ha)
  have hrtf2 : removeTrailingFence ((y ++ c :: w) ++ ['\n', '\x60', '\x60', '\x60']) =
      y ++ c :: (w ++ ['\n']) := by
    unfold removeTrailingFence
    rw [hrs2]
    rw [show (y ++ c :: w ++ ['\n', '\x60', '\x60']) ++ ['\x60'] =
      (y ++ c :: w ++ ['\n']) ++ ['\x60', '\x60', '\x60'] by simp]
    rw [ticks_suffix_true, if_pos rfl]
    rw [show ((y ++ c :: w ++ ['\n']) ++ ['\x60', '\x60', '\x60']).length - 3 =
      (y ++ c :: w ++ ['\n']).length by simp; omega]
    rw [List.take_left]
    simp
  have hws_nl : ∀ a ∈ w ++ ['\n'], isWs a = true := by
    intro a ha
    rcases List.mem_append.1 ha with h1 | h1
    · exact hcw2 a h1
    · simp only [List.mem_singleton] at h1
      subst h1
      decide
  have hclean_f : cleanResponseText ("```json\n".data ++ ((m ++ c :: w) ++ "\n```".data)) =
      List.dropWhile isWs y ++ [c] := by
    unfold cleanResponseText
    rw [hfence1, hfence2, hfence3, hrtf2]
    unfold pyStrip
    rw [dropWhile_append_cons_neg _ _ hcw]
    exact pyRStrip_append_nonws _ hcw hws_nl
  rw [hclean_f, hclean_t]

/-- C8: a reply that is a parseable JSON text decodes identically with
and without a surrounding markdown code fence. -/
theorem c8_fence_invariance (t lang : String) (h : (jsonParse t.data).isSome = true) :
    parseApiResponse ("```json\n" ++ t ++ "\n```") lang = parseApiResponse t lang := by
  obtain ⟨v, hv⟩ := Option.isSome_iff_exists.1 h
  have hclean : cleanResponseText ("```json\n" ++ t ++ "\n```").data =
      cleanResponseText t.data := by
    have hd : ("```json\n" ++ t ++ "\n```").data =
        "```json\n".data ++ (t.data ++ "\n```".data) := by
      simp
    rw [hd]
    exact clean_fence_eq (jsonParse_shape hv)
  simp only [parseApiResponse, hclean]

/-- C8 (witness): a concrete fenced verdict. -/
theorem c8_fence_witness :
    parseApiResponse ("```json\n" ++ "\x7b\"sentiment_score\": 5\x7d" ++ "\n```") "en" =
      parseApiResponse "\x7b\"sentiment_score\": 5\x7d" "en" :=
  c8_fence_invariance "\x7b\"sentiment_score\": 5\x7d" "en" (by rfl)
